import Mathlib

/-!
# Minesweeper board engine: a shallow embedding of `src/games/minesweeper.c`

The embedding mirrors the C source function by function.  The global
`MinesweeperGame` struct becomes the `Game` structure; the grid arrays
become total functions `Int → Int → _` (C array indices are `int`s, and
`is_valid_position` guards every access exactly as in the source).
Machine `int` counters are modelled as `Int`.  The only liberties taken:

* the C process-global `rand()` stream (seeded by `srand(time(NULL))` in
  `generate_mines`) is modelled as an explicit list of picks `(r, c)`
  consumed in order, each reduced modulo the board dimensions exactly as
  `rand() % game.height` / `rand() % game.width`; the potentially
  unbounded reject-and-resample loop returns `none` when the list is
  exhausted before all mines are placed;
* the recursive cascade (`reveal_cell` / `reveal_adjacent_cells`) takes a
  fuel parameter; the top-level entry point supplies `width*height + 1`
  fuel, which is shown to be enough (each recursive call first flips a
  Hidden cell, so the recursion depth is bounded by the number of hidden
  cells);
* wall-clock fields (`start_time`, best times) and the session statistics
  (`games_played`, `games_won`) are omitted: no claim mentions them;
* `mineSeen` is a history (ghost) variable, set exactly when the mine
  branch of `reveal_cell` fires (the only way the source reveals a mine
  while the game is in progress); it records "a mine was revealed while
  the session was InProgress".
-/

/-- Cell states, mirroring the C `CellState` enum. -/
inductive CellState where
  | Hidden
  | Revealed
  | Flagged
deriving DecidableEq, Repr

/-- The game state, mirroring the C `MinesweeperGame` struct (statistics
and wall-clock fields omitted; `mineSeen` is a history variable). -/
structure Game where
  width : Nat
  height : Nat
  mineCount : Nat
  revealedCount : Int
  flagsPlaced : Int
  gameOver : Bool
  victory : Bool
  firstClick : Bool
  mineSeen : Bool
  mines : Int → Int → Bool
  state : Int → Int → CellState
  numbers : Int → Int → Nat

/-- C constant `MAX_WIDTH`. -/
def MAX_WIDTH : Int := 30
/-- C constant `MAX_HEIGHT`. -/
def MAX_HEIGHT : Int := 16
/-- C constant `MIN_WIDTH`. -/
def MIN_WIDTH : Int := 5
/-- C constant `MIN_HEIGHT`. -/
def MIN_HEIGHT : Int := 5

/-- C `is_valid_position`: row and column within the grid bounds. -/
def is_valid_position (g : Game) (row col : Int) : Bool :=
  decide (0 ≤ row ∧ row < (g.height : Int) ∧ 0 ≤ col ∧ col < (g.width : Int))

/-- The eight neighbor offsets, in the order the C `dr`/`dc` loops visit
them. -/
def neighborOffsets : List (Int × Int) :=
  [(-1, -1), (-1, 0), (-1, 1), (0, -1), (0, 1), (1, -1), (1, 0), (1, 1)]

/-- C `count_adjacent_mines`: number of in-bounds mine neighbors. -/
def count_adjacent_mines (g : Game) (row col : Int) : Nat :=
  neighborOffsets.countP fun d =>
    is_valid_position g (row + d.1) (col + d.2) && g.mines (row + d.1) (col + d.2)

/-- C `calculate_numbers`: every in-bounds non-mine cell stores its
adjacent-mine count; all other cells keep their old value (the C loops
only touch in-bounds non-mine cells). -/
def calculate_numbers (g : Game) : Game :=
  { g with numbers := fun r c =>
      if is_valid_position g r c = true ∧ g.mines r c = false
      then count_adjacent_mines g r c
      else g.numbers r c }

/-- The reject-and-resample loop body of C `generate_mines`: consume
picks until `remaining` mines have been placed, skipping the excluded
start cell and already-mined cells.  A pick `(a, b)` lands on
`(a % height, b % width)` exactly as `rand() % game.height` /
`rand() % game.width` do.  Returns `none` if the pick list runs out. -/
def place_mines_loop (g : Game) (startRow startCol : Int) :
    List (Nat × Nat) → Nat → (Int → Int → Bool) → Option (Int → Int → Bool)
  | _, 0, m => some m
  | [], _ + 1, _ => none
  | p :: ps, remaining + 1, m =>
      let row : Int := (p.1 % g.height : Nat)
      let col : Int := (p.2 % g.width : Nat)
      if (row = startRow ∧ col = startCol) ∨ m row col = true then
        place_mines_loop g startRow startCol ps (remaining + 1) m
      else
        place_mines_loop g startRow startCol ps remaining
          (fun r c => if r = row ∧ c = col then true else m r c)

/-- C `generate_mines`: place `mine_count` mines avoiding the first-click
cell, then `calculate_numbers`. -/
def generate_mines (g : Game) (startRow startCol : Int)
    (picks : List (Nat × Nat)) : Option Game :=
  (place_mines_loop g startRow startCol picks g.mineCount g.mines).map
    fun m => calculate_numbers { g with mines := m }

/-- C `check_victory`: all non-mine cells revealed. -/
def check_victory (g : Game) : Bool :=
  decide (g.revealedCount = (g.width * g.height : Int) - (g.mineCount : Int))

/-- C `game_over_sequence` (statistics updates omitted): end the game and
set every in-bounds mine cell to `Revealed`. -/
def game_over_sequence (won : Bool) (g : Game) : Game :=
  { g with gameOver := true, victory := won,
           state := fun r c =>
             if is_valid_position g r c = true ∧ g.mines r c = true
             then CellState.Revealed else g.state r c }

/-- One cell flipped to `Revealed` and the counter bumped (the two
statements at the top of C `reveal_cell` after the guard). -/
def markRevealed (g : Game) (row col : Int) : Game :=
  { g with state := fun r c =>
             if r = row ∧ c = col then CellState.Revealed else g.state r c,
           revealedCount := g.revealedCount + 1 }

/-- C `reveal_adjacent_cells`, parametrized by the function `f` used to
reveal a neighbor (it will be the cascade at one fuel level less): visit
the neighbor list in order, recursing into each one that is still in
bounds and Hidden. -/
def revealAdjWith (f : Int → Int → Game → Game) : List (Int × Int) → Game → Game
  | [], g => g
  | n :: ns, g =>
      let g' := if is_valid_position g n.1 n.2 = true ∧ g.state n.1 n.2 = CellState.Hidden
                then f n.1 n.2 g else g
      revealAdjWith f ns g'

/-- C `reveal_cell`, after mines have been placed (the first-click branch
lives in `reveal_cell` below; this core never reads `firstClick`).
`fuel` bounds the recursion depth; the top level supplies enough for the
recursion never to be cut short. -/
def revealCore : Nat → Int → Int → Game → Game
  | 0 => fun _ _ g => g
  | fuel + 1 => fun row col g =>
      if ¬ (is_valid_position g row col = true ∧ g.state row col = CellState.Hidden) then g
      else
        let g1 := markRevealed g row col
        if g1.mines row col = true then
          { g1 with gameOver := true, victory := false, mineSeen := true }
        else
          let g2 := if g1.numbers row col = 0
                    then revealAdjWith (revealCore fuel)
                           (neighborOffsets.map fun d => (row + d.1, col + d.2)) g1
                    else g1
          if check_victory g2 = true then game_over_sequence true g2 else g2

/-- Fuel supplied at the top level: more than the number of cells. -/
def fuelOf (g : Game) : Nat := g.width * g.height + 1

/-- C `reveal_cell`, top-level entry: the guard, then the first-click
lazy mine generation, then the core reveal.  Returns `none` only when
the pick list is too short to finish mine placement (the C loop would
keep drawing from `rand()`). -/
def reveal_cell (g : Game) (row col : Int) (picks : List (Nat × Nat)) : Option Game :=
  if ¬ (is_valid_position g row col = true ∧ g.state row col = CellState.Hidden) then some g
  else if g.firstClick = true then
    match generate_mines g row col picks with
    | none => none
    | some g2 => some (revealCore (fuelOf g2) row col { g2 with firstClick := false })
  else some (revealCore (fuelOf g) row col g)

/-- C `toggle_flag`. -/
def toggle_flag (g : Game) (row col : Int) : Game :=
  if ¬ (is_valid_position g row col = true) ∨ g.state row col = CellState.Revealed then g
  else if g.state row col = CellState.Flagged then
    { g with state := fun r c =>
               if r = row ∧ c = col then CellState.Hidden else g.state r c,
             flagsPlaced := g.flagsPlaced - 1 }
  else if g.flagsPlaced < (g.mineCount : Int) then
    { g with state := fun r c =>
               if r = row ∧ c = col then CellState.Flagged else g.state r c,
             flagsPlaced := g.flagsPlaced + 1 }
  else g

/-- Outcome of a flag toggle, per the spec's `FlagOutcome` taxonomy; the
branches mirror C `toggle_flag` exactly (the C function returns `void`,
so the outcome labels name its branches). -/
inductive FlagOutcome where
  | Flagged
  | Unflagged
  | RejectedOutOfBounds
  | RejectedAlreadyRevealed
  | RejectedMaxFlagsReached
deriving DecidableEq, Repr

/-- Which branch of C `toggle_flag` runs. -/
def flag_outcome (g : Game) (row col : Int) : FlagOutcome :=
  if ¬ (is_valid_position g row col = true) then .RejectedOutOfBounds
  else if g.state row col = CellState.Revealed then .RejectedAlreadyRevealed
  else if g.state row col = CellState.Flagged then .Unflagged
  else if g.flagsPlaced < (g.mineCount : Int) then .Flagged
  else .RejectedMaxFlagsReached

/-- Rejection reasons for `reveal`, per the spec's `NoOp` taxonomy; the
conditions are exactly those of the guard at the top of C `reveal_cell`. -/
inductive NoOpReason where
  | OutOfBounds
  | AlreadyRevealed
  | AlreadyFlagged
deriving DecidableEq, Repr

/-- Which rejection (if any) the guard of C `reveal_cell` takes. -/
def reveal_reject_reason (g : Game) (row col : Int) : Option NoOpReason :=
  if ¬ (is_valid_position g row col = true) then some .OutOfBounds
  else match g.state row col with
    | CellState.Revealed => some .AlreadyRevealed
    | CellState.Flagged => some .AlreadyFlagged
    | CellState.Hidden => none

/-- The board produced by the custom-difficulty initialization block of
C `play_minesweeper` (identical to the tail of `setup_difficulty`): all
cells Hidden, no mines, counters zeroed, first click pending. -/
def setup_board (w h mc : Int) : Game :=
  { width := w.toNat, height := h.toNat, mineCount := mc.toNat,
    revealedCount := 0, flagsPlaced := 0,
    gameOver := false, victory := false, firstClick := true, mineSeen := false,
    mines := fun _ _ => false,
    state := fun _ _ => CellState.Hidden,
    numbers := fun _ _ => 0 }

/-- The custom-difficulty validation of C `play_minesweeper` (lines
583-604): width in `[MIN_WIDTH, MAX_WIDTH]`, height in
`[MIN_HEIGHT, MAX_HEIGHT]`, mine count in `[1, width*height/4]`,
checked in that order; on success the board is initialized. -/
def configure (w h mc : Int) : Option Game :=
  if w < MIN_WIDTH ∨ MAX_WIDTH < w then none
  else if h < MIN_HEIGHT ∨ MAX_HEIGHT < h then none
  else if mc < 1 ∨ (w * h) / 4 < mc then none
  else some (setup_board w h mc)

/-- Acceptance predicate of `configure` as claim C6 words it (spec §4.1:
"5 ≤ width,height ≤ 30 and 1 ≤ mineCount ≤ (width*height)/4").  Spec-side
definition, to be compared with `configure` from the source. -/
def configure_ok_spec (w h mc : Int) : Prop :=
  5 ≤ w ∧ w ≤ 30 ∧ 5 ≤ h ∧ h ≤ 30 ∧ 1 ≤ mc ∧ mc ≤ (w * h) / 4

instance (w h mc : Int) : Decidable (configure_ok_spec w h mc) := by
  unfold configure_ok_spec; infer_instance

/-- Session status `Won` (spec §3): the C pair `game_over && victory`. -/
def statusWon (g : Game) : Bool := g.gameOver && g.victory

/-- States a session can actually be in: initialized by the validated
custom configuration, then driven by `reveal_cell` and `toggle_flag`
while the game is not over (`play_game_loop` runs commands only while
`!game.game_over`).  A failed mine generation (`reveal_cell = none`,
impossible with the C's endless `rand()` stream) is absorbed by `getD`
as a stutter step. -/
inductive Reachable : Game → Prop where
  | setup (w h mc : Int) (g : Game) : configure w h mc = some g → Reachable g
  | reveal (g : Game) (row col : Int) (picks : List (Nat × Nat)) :
      Reachable g → g.gameOver = false →
      Reachable ((reveal_cell g row col picks).getD g)
  | flag (g : Game) (row col : Int) :
      Reachable g → g.gameOver = false → Reachable (toggle_flag g row col)

/-- The in-bounds coordinates as a finite set (row, col). -/
def gridCells (g : Game) : Finset (Nat × Nat) :=
  Finset.range g.height ×ˢ Finset.range g.width

/-- Number of in-bounds mine cells. -/
def minesCard (g : Game) : Nat :=
  ((gridCells g).filter fun p => g.mines (p.1 : Int) (p.2 : Int) = true).card

/-- Number of in-bounds cells in a given state. -/
def stateCard (g : Game) (s : CellState) : Nat :=
  ((gridCells g).filter fun p => g.state (p.1 : Int) (p.2 : Int) = s).card

/-- Number of in-bounds revealed non-mine cells. -/
def revealedNonMineCard (g : Game) : Nat :=
  ((gridCells g).filter fun p =>
    g.state (p.1 : Int) (p.2 : Int) = CellState.Revealed ∧
    g.mines (p.1 : Int) (p.2 : Int) = false).card

/-- The win target: number of non-mine cells, `width*height - mineCount`. -/
def target (g : Game) : Int := (g.width * g.height : Int) - (g.mineCount : Int)

/-- Chebyshev adjacency, via the same offset list the C loops walk. -/
def adjacentTo (r c r' c' : Int) : Prop := (r' - r, c' - c) ∈ neighborOffsets

instance (r c r' c' : Int) : Decidable (adjacentTo r c r' c') := by
  unfold adjacentTo; infer_instance

/-- Reachability from the clicked cell through a chain of cells that are
Hidden, zero-adjacency and non-mine: the cells the C cascade actually
expands through.  Every chain node including the endpoint satisfies
those conditions (the start cell's own conditions are hypotheses of the
theorems that use this). -/
inductive ZReachH (g : Game) (r c : Int) : Int → Int → Prop where
  | base : ZReachH g r c r c
  | step {x y x' y' : Int} :
      ZReachH g r c x y →
      g.state x y = CellState.Hidden → g.numbers x y = 0 → g.mines x y = false →
      adjacentTo x y x' y' → is_valid_position g x' y' = true →
      g.state x' y' = CellState.Hidden → g.numbers x' y' = 0 → g.mines x' y' = false →
      ZReachH g r c x' y'

/-- Reachability through a chain of zero-adjacency non-mine cells with no
condition on their current state — claim C4's wording ("reachable via a
chain of zero-adjacency neighbors"), which ignores flags. -/
inductive ZReachAny (g : Game) (r c : Int) : Int → Int → Prop where
  | base : ZReachAny g r c r c
  | step {x y x' y' : Int} :
      ZReachAny g r c x y →
      g.numbers x y = 0 → g.mines x y = false →
      adjacentTo x y x' y' → is_valid_position g x' y' = true →
      g.numbers x' y' = 0 → g.mines x' y' = false →
      ZReachAny g r c x' y'

/-- Number of in-bounds Hidden cells (the measure that bounds the
cascade's recursion depth). -/
def hiddenCard (g : Game) : Nat := stateCard g CellState.Hidden

/-- The `numbers` grid agrees with `count_adjacent_mines` on every
in-bounds non-mine cell — what `calculate_numbers` establishes. -/
def numbersFaithful (g : Game) : Prop :=
  ∀ p ∈ gridCells g, g.mines (p.1 : Int) (p.2 : Int) = false →
    g.numbers (p.1 : Int) (p.2 : Int) = count_adjacent_mines g (p.1 : Int) (p.2 : Int)

/-- Everything a reveal leaves untouched: dimensions, mine count, the
mine and number grids, the flag counter, and the first-click latch. -/
structure sameBoard (g g' : Game) : Prop where
  width : g'.width = g.width
  height : g'.height = g.height
  mineCount : g'.mineCount = g.mineCount
  flagsPlaced : g'.flagsPlaced = g.flagsPlaced
  firstClick : g'.firstClick = g.firstClick
  mines : g'.mines = g.mines
  numbers : g'.numbers = g.numbers

/-- How a reveal may change cell states: a Revealed cell stays Revealed,
any change ends in Revealed (reveals are never undone and flags are never
planted by a reveal), and a Flagged cell either stays Flagged or is a
mine overwritten to Revealed by `game_over_sequence`. -/
def stateMono (g g' : Game) : Prop :=
  ∀ x y : Int,
    (g.state x y = CellState.Revealed → g'.state x y = CellState.Revealed) ∧
    (g'.state x y ≠ g.state x y → g'.state x y = CellState.Revealed) ∧
    (g.state x y = CellState.Flagged → g'.state x y = CellState.Flagged ∨
       (g.mines x y = true ∧ g'.state x y = CellState.Revealed))

/-- Flags survive an operation, except that a flagged mine may be
overwritten to Revealed by the show-all-mines pass of a victory. -/
def flagsKept (g g' : Game) : Prop :=
  ∀ x y : Int, g.state x y = CellState.Flagged →
    g'.state x y = CellState.Flagged ∨
    (g.mines x y = true ∧ g'.state x y = CellState.Revealed ∧
     g'.gameOver = true ∧ g'.victory = true)

/-- Invariant of a post-placement, not-yet-lost game state, preserved by
every `revealCore` call on a non-mine target (the cascade); the induction
package behind claims C2, C4 and C7. -/
structure CoreInv (g : Game) : Prop where
  mcard : minesCard g = g.mineCount
  faithful : numbersFaithful g
  notSeen : g.mineSeen = false
  countEq : g.revealedCount = (revealedNonMineCard g : Int)
  countLe : g.revealedCount ≤ target g
  noLoss : g.gameOver = true → g.victory = true
  vicDone : g.gameOver = true →
    (∀ p ∈ gridCells g, g.state (p.1 : Int) (p.2 : Int) = CellState.Revealed) ∧
    g.revealedCount = target g

/-- Invariant of every reachable session state (claims C2, C5, C7).  The
two phases are before and after lazy mine placement; `mineSeen` is the
history flag "a mine was revealed while the game was in progress". -/
structure ReachInv (g : Game) : Prop where
  wbounds : 5 ≤ g.width ∧ g.width ≤ 30
  hbounds : 5 ≤ g.height ∧ g.height ≤ 16
  mcBounds : 1 ≤ g.mineCount ∧ g.mineCount ≤ g.width * g.height / 4
  flagsLe : g.flagsPlaced ≤ (g.mineCount : Int)
  preMines : g.firstClick = true → (∀ r c, g.mines r c = false) ∧
    g.revealedCount = 0 ∧ g.gameOver = false ∧ g.victory = false ∧ g.mineSeen = false ∧
    (∀ p ∈ gridCells g, g.state (p.1 : Int) (p.2 : Int) ≠ CellState.Revealed)
  postMcard : g.firstClick = false → minesCard g = g.mineCount
  postFaithful : g.firstClick = false → numbersFaithful g
  countEq : g.revealedCount =
    (revealedNonMineCard g : Int) + (if g.mineSeen then 1 else 0)
  countLe : g.revealedCount ≤ target g
  progress : g.gameOver = false → g.mineSeen = false ∧ g.revealedCount < target g
  lossSeen : g.gameOver = true → g.victory = false → g.mineSeen = true
  vicSeen : g.victory = true → g.mineSeen = false
  vicDone : g.gameOver = true → g.victory = true →
    (∀ p ∈ gridCells g, g.state (p.1 : Int) (p.2 : Int) = CellState.Revealed) ∧
    g.revealedCount = target g

/-! ## Concrete scenarios

Small sessions and mid-session states used by the closed counterexample
theorems and the witnesses.  All are 5×5 boards (the smallest the
configuration validation accepts). -/

/-- A fresh 5×5 board with 2 mines. -/
def lossSetup : Game := setup_board 5 5 2

/-- After the first reveal at `(1,0)`: the pick stream places mines at
`(0,0)` and `(0,2)`, and `(1,0)` has one adjacent mine, so no cascade. -/
def lossMid : Game := (reveal_cell lossSetup 1 0 [(0, 0), (0, 2)]).getD lossSetup

/-- After then revealing the mine at `(0,2)`: a lost game. -/
def lossEnd : Game := (reveal_cell lossMid 0 2 []).getD lossMid

/-- A fresh 5×5 board with 1 mine. -/
def flagSetup : Game := setup_board 5 5 1

/-- After flagging `(0,0)`: the single allowed flag is placed. -/
def flagOne : Game := toggle_flag flagSetup 0 0

/-- A successful mine generation on a fresh board: one mine, first click
at `(4,4)`, pick stream `[(0,0)]`. -/
def genDemo : Game :=
  (generate_mines (setup_board 5 5 1) 4 4 [(0, 0)]).getD (setup_board 5 5 1)

/-- A mid-session 5×5 state one reveal away from victory, with the single
mine at `(0,0)` flagged: 23 of the 24 safe cells are revealed, only
`(4,4)` is still Hidden.  (Such a state arises by flagging the mine and
then revealing 23 safe cells.) -/
def nearWin : Game :=
  { width := 5, height := 5, mineCount := 1, revealedCount := 23, flagsPlaced := 1,
    gameOver := false, victory := false, firstClick := false, mineSeen := false,
    mines := fun r c => decide (r = 0 ∧ c = 0),
    state := fun r c => if r = 0 ∧ c = 0 then CellState.Flagged
                        else if r = 4 ∧ c = 4 then CellState.Hidden
                        else CellState.Revealed,
    numbers := fun r c =>
      if (r = 0 ∧ c = 1) ∨ (r = 1 ∧ c = 0) ∨ (r = 1 ∧ c = 1) then 1 else 0 }

/-- The state after revealing `(4,4)` on `nearWin`: the game is won and
`game_over_sequence` has run. -/
def nearWinPost : Game := (reveal_cell nearWin 4 4 []).getD nearWin

/-- A mid-session 5×5 state: mines at `(4,2)` and `(1,3)` (so the cells
`(4,4)` and `(3,4)` are the only zero-adjacency cells in the corner),
`(3,4)` flagged, everything else Hidden, nothing revealed yet. -/
def blockedBoard : Game :=
  calculate_numbers
  { width := 5, height := 5, mineCount := 2, revealedCount := 0, flagsPlaced := 1,
    gameOver := false, victory := false, firstClick := false, mineSeen := false,
    mines := fun r c => decide ((r = 4 ∧ c = 2) ∨ (r = 1 ∧ c = 3)),
    state := fun r c => if r = 3 ∧ c = 4 then CellState.Flagged else CellState.Hidden,
    numbers := fun _ _ => 0 }

/-- The state after revealing `(4,4)` on `blockedBoard`: the cascade
skips the flagged zero-adjacency neighbor `(3,4)`. -/
def blockedPost : Game := (reveal_cell blockedBoard 4 4 []).getD blockedBoard

/-- A mid-session 5×5 state: mines at `(1,1)`, `(1,3)` and `(3,1)`, all
three neighbors of the zero-adjacency corner `(4,4)` flagged, everything
else Hidden. -/
def corneredBoard : Game :=
  calculate_numbers
  { width := 5, height := 5, mineCount := 3, revealedCount := 0, flagsPlaced := 3,
    gameOver := false, victory := false, firstClick := false, mineSeen := false,
    mines := fun r c => decide ((r = 1 ∧ c = 1) ∨ (r = 1 ∧ c = 3) ∨ (r = 3 ∧ c = 1)),
    state := fun r c =>
      if (r = 3 ∧ c = 3) ∨ (r = 3 ∧ c = 4) ∨ (r = 4 ∧ c = 3) then CellState.Flagged
      else CellState.Hidden,
    numbers := fun _ _ => 0 }

/-! ## Basic lemmas -/

theorem valid_iff (g : Game) (row col : Int) :
    is_valid_position g row col = true ↔
    0 ≤ row ∧ row < (g.height : Int) ∧ 0 ≤ col ∧ col < (g.width : Int) := by
  simp [is_valid_position]

theorem mem_gridCells (g : Game) (p : Nat × Nat) :
    p ∈ gridCells g ↔ p.1 < g.height ∧ p.2 < g.width := by
  cases p with
  | mk a b => simp [gridCells, Finset.mem_product]

theorem valid_of_mem {g : Game} {p : Nat × Nat} (h : p ∈ gridCells g) :
    is_valid_position g (p.1 : Int) (p.2 : Int) = true := by
  rw [mem_gridCells] at h
  rw [valid_iff]
  omega

theorem valid_toNat {g : Game} {row col : Int} (h : is_valid_position g row col = true) :
    (row.toNat, col.toNat) ∈ gridCells g ∧ (row.toNat : Int) = row ∧ (col.toNat : Int) = col := by
  rw [valid_iff] at h
  refine ⟨?_, ?_, ?_⟩
  · rw [mem_gridCells]; constructor <;> simp <;> omega
  · omega
  · omega

theorem filter_flip_on {α : Type} [DecidableEq α] {s : Finset α} {p0 : α} (hp : p0 ∈ s)
    {Q R : α → Prop} [DecidablePred Q] [DecidablePred R]
    (hoff : ∀ p ∈ s, p ≠ p0 → (Q p ↔ R p)) (h0 : ¬ Q p0) (h1 : R p0) :
    (s.filter R).card = (s.filter Q).card + 1 := by
  have hins : s.filter R = insert p0 (s.filter Q) := by
    ext x
    simp only [Finset.mem_filter, Finset.mem_insert]
    constructor
    · rintro ⟨hx, hR⟩
      by_cases hxp : x = p0
      · exact Or.inl hxp
      · exact Or.inr ⟨hx, (hoff x hx hxp).mpr hR⟩
    · rintro (rfl | ⟨hx, hQ⟩)
      · exact ⟨hp, h1⟩
      · have hxp : x ≠ p0 := fun he => h0 (he ▸ hQ)
        exact ⟨hx, (hoff x hx hxp).mp hQ⟩
  rw [hins, Finset.card_insert_of_not_mem]
  intro hmem
  exact h0 (Finset.mem_filter.mp hmem).2

theorem filter_flip_congr {α : Type} {s : Finset α}
    {Q R : α → Prop} [DecidablePred Q] [DecidablePred R]
    (hiff : ∀ p ∈ s, Q p ↔ R p) : (s.filter R).card = (s.filter Q).card := by
  have : s.filter R = s.filter Q := by
    ext x
    simp only [Finset.mem_filter]
    exact and_congr_right fun hx => (hiff x hx).symm
  rw [this]

/-! ## Mine generation (claim C1) -/

theorem place_loop_spec (g : Game) (sr sc : Int) (hh : 0 < g.height) (hw : 0 < g.width) :
    ∀ (picks : List (Nat × Nat)) (k : Nat) (m m' : Int → Int → Bool),
      place_mines_loop g sr sc picks k m = some m' →
      ((gridCells g).filter fun p => m' (p.1 : Int) (p.2 : Int) = true).card
        = ((gridCells g).filter fun p => m (p.1 : Int) (p.2 : Int) = true).card + k ∧
      (m sr sc = false → m' sr sc = false) := by
  intro picks
  induction picks with
  | nil =>
      intro k m m' hres
      cases k with
      | zero =>
          simp only [place_mines_loop, Option.some.injEq] at hres
          subst hres
          exact ⟨rfl, fun h => h⟩
      | succ n => simp [place_mines_loop] at hres
  | cons p ps ih =>
      intro k m m' hres
      cases k with
      | zero =>
          simp only [place_mines_loop, Option.some.injEq] at hres
          subst hres
          exact ⟨rfl, fun h => h⟩
      | succ n =>
          rw [place_mines_loop] at hres
          set row : Int := ((p.1 % g.height : Nat) : Int) with hrow
          set col : Int := ((p.2 % g.width : Nat) : Int) with hcol
          by_cases hskip : (row = sr ∧ col = sc) ∨ m row col = true
          · rw [if_pos hskip] at hres
            exact ih (n + 1) m m' hres
          · rw [if_neg hskip] at hres
            push_neg at hskip
            obtain ⟨hnotstart, hfresh⟩ := hskip
            have hstep := ih n _ m' hres
            obtain ⟨hcard, hexcl⟩ := hstep
            constructor
            · rw [hcard]
              have hmem : ((p.1 % g.height : Nat), (p.2 % g.width : Nat)) ∈ gridCells g := by
                rw [mem_gridCells]
                exact ⟨Nat.mod_lt _ hh, Nat.mod_lt _ hw⟩
              have hflip := filter_flip_on hmem
                (Q := fun q : Nat × Nat => m (q.1 : Int) (q.2 : Int) = true)
                (R := fun q : Nat × Nat =>
                  (if (q.1 : Int) = row ∧ (q.2 : Int) = col then true else m (q.1 : Int) (q.2 : Int)) = true)
                ?_ ?_ ?_
              · rw [hflip]; omega
              · intro q hq hne
                show m (q.1 : Int) (q.2 : Int) = true ↔
                  (if (q.1 : Int) = row ∧ (q.2 : Int) = col then true
                   else m (q.1 : Int) (q.2 : Int)) = true
                have hcond : ¬((q.1 : Int) = row ∧ (q.2 : Int) = col) := by
                  rintro ⟨h1, h2⟩
                  apply hne
                  rw [hrow] at h1
                  rw [hcol] at h2
                  have e1 : q.1 = p.1 % g.height := by exact_mod_cast h1
                  have e2 : q.2 = p.2 % g.width := by exact_mod_cast h2
                  cases q
                  simp_all
                rw [if_neg hcond]
              · show ¬ m ((p.1 % g.height : Nat) : Int) ((p.2 % g.width : Nat) : Int) = true
                rw [← hrow, ← hcol]
                exact hfresh
              · show (if ((p.1 % g.height : Nat) : Int) = row ∧
                        ((p.2 % g.width : Nat) : Int) = col then true
                      else m ((p.1 % g.height : Nat) : Int) ((p.2 % g.width : Nat) : Int)) = true
                have hc : ((p.1 % g.height : Nat) : Int) = row ∧
                    ((p.2 % g.width : Nat) : Int) = col := ⟨hrow.symm, hcol.symm⟩
                rw [if_pos hc]
            · intro hm
              apply hexcl
              have : ¬(sr = row ∧ sc = col) := by
                rintro ⟨h1, h2⟩
                exact hnotstart h1.symm h2.symm
              rw [if_neg this]
              exact hm

theorem generate_spec {g g' : Game} {sr sc : Int} {picks : List (Nat × Nat)}
    (hzero : ∀ r c, g.mines r c = false) (hh : 0 < g.height) (hw : 0 < g.width)
    (hgen : generate_mines g sr sc picks = some g') :
    minesCard g' = g.mineCount ∧ g'.mines sr sc = false ∧
    g'.width = g.width ∧ g'.height = g.height ∧ g'.mineCount = g.mineCount ∧
    g'.state = g.state ∧ g'.revealedCount = g.revealedCount ∧
    g'.flagsPlaced = g.flagsPlaced ∧ g'.gameOver = g.gameOver ∧
    g'.victory = g.victory ∧ g'.mineSeen = g.mineSeen ∧
    g'.firstClick = g.firstClick ∧ numbersFaithful g' := by
  simp only [generate_mines, Option.map_eq_some'] at hgen
  obtain ⟨m, hloop, hmk⟩ := hgen
  have hspec := place_loop_spec g sr sc hh hw picks g.mineCount g.mines m hloop
  obtain ⟨hcard, hexcl⟩ := hspec
  have hbase : ((gridCells g).filter fun p => g.mines (p.1 : Int) (p.2 : Int) = true).card = 0 := by
    rw [Finset.card_eq_zero, Finset.filter_eq_empty_iff]
    intro p _
    simp [hzero]
  subst hmk
  refine ⟨?_, ?_, rfl, rfl, rfl, rfl, rfl, rfl, rfl, rfl, rfl, rfl, ?_⟩
  · show ((gridCells g).filter fun p => m (p.1 : Int) (p.2 : Int) = true).card = g.mineCount
    rw [hcard, hbase]
    omega
  · exact hexcl (hzero sr sc)
  · intro p hp hmine
    have hvalid : is_valid_position { g with mines := m } (p.1 : Int) (p.2 : Int) = true := by
      rw [valid_iff]
      rw [mem_gridCells] at hp
      have hp2 : p.1 < g.height ∧ p.2 < g.width := hp
      show (0 : Int) ≤ p.1 ∧ (p.1 : Int) < (g.height : Int) ∧
        (0 : Int) ≤ p.2 ∧ (p.2 : Int) < (g.width : Int)
      omega
    have hmine' : m (p.1 : Int) (p.2 : Int) = false := hmine
    show (if is_valid_position { g with mines := m } (p.1 : Int) (p.2 : Int) = true ∧
            m (p.1 : Int) (p.2 : Int) = false
          then count_adjacent_mines { g with mines := m } (p.1 : Int) (p.2 : Int)
          else g.numbers (p.1 : Int) (p.2 : Int)) =
      count_adjacent_mines (calculate_numbers { g with mines := m }) (p.1 : Int) (p.2 : Int)
    rw [if_pos ⟨hvalid, hmine'⟩]
    rfl

/-! ## Monotonicity and frame lemmas for the cascade -/

theorem sameBoard_refl (g : Game) : sameBoard g g :=
  ⟨rfl, rfl, rfl, rfl, rfl, rfl, rfl⟩

theorem sameBoard_trans {g g' g'' : Game} (h1 : sameBoard g g') (h2 : sameBoard g' g'') :
    sameBoard g g'' :=
  ⟨h2.width.trans h1.width, h2.height.trans h1.height, h2.mineCount.trans h1.mineCount,
   h2.flagsPlaced.trans h1.flagsPlaced, h2.firstClick.trans h1.firstClick,
   h2.mines.trans h1.mines, h2.numbers.trans h1.numbers⟩

theorem stateMono_refl (g : Game) : stateMono g g :=
  fun _ _ => ⟨id, fun h => absurd rfl h, Or.inl⟩

theorem stateMono_trans {g g' g'' : Game} (hm : g'.mines = g.mines)
    (h1 : stateMono g g') (h2 : stateMono g' g'') : stateMono g g'' := by
  intro x y
  obtain ⟨r1, c1, f1⟩ := h1 x y
  obtain ⟨r2, c2, f2⟩ := h2 x y
  refine ⟨fun h => r2 (r1 h), ?_, ?_⟩
  · intro hne
    by_cases he : g''.state x y = g'.state x y
    · rw [he]
      exact c1 fun he2 => hne (he.trans he2)
    · exact c2 he
  · intro hf
    rcases f1 hf with hf' | ⟨hm1, hr⟩
    · rcases f2 hf' with hf'' | ⟨hm2, hr2⟩
      · exact Or.inl hf''
      · rw [hm] at hm2
        exact Or.inr ⟨hm2, hr2⟩
    · exact Or.inr ⟨hm1, r2 hr⟩

theorem gos_sameBoard (won : Bool) (g : Game) : sameBoard g (game_over_sequence won g) :=
  ⟨rfl, rfl, rfl, rfl, rfl, rfl, rfl⟩

theorem gos_stateMono (won : Bool) (g : Game) : stateMono g (game_over_sequence won g) := by
  intro x y
  have hs : (game_over_sequence won g).state x y =
      if is_valid_position g x y = true ∧ g.mines x y = true then CellState.Revealed
      else g.state x y := rfl
  by_cases h : is_valid_position g x y = true ∧ g.mines x y = true
  · rw [hs, if_pos h]
    exact ⟨fun _ => rfl, fun _ => rfl, fun _ => Or.inr ⟨h.2, rfl⟩⟩
  · rw [hs, if_neg h]
    exact ⟨id, fun hne => absurd rfl hne, Or.inl⟩

theorem markRevealed_sameBoard (g : Game) (row col : Int) :
    sameBoard g (markRevealed g row col) :=
  ⟨rfl, rfl, rfl, rfl, rfl, rfl, rfl⟩

theorem markRevealed_state (g : Game) (row col x y : Int) :
    (markRevealed g row col).state x y =
      if x = row ∧ y = col then CellState.Revealed else g.state x y := rfl

theorem markRevealed_stateMono {g : Game} {row col : Int}
    (hh : g.state row col = CellState.Hidden) :
    stateMono g (markRevealed g row col) := by
  intro x y
  by_cases h : x = row ∧ y = col
  · rw [markRevealed_state, if_pos h]
    obtain ⟨rfl, rfl⟩ := h
    refine ⟨fun _ => rfl, fun _ => rfl, fun hf => ?_⟩
    exact absurd (hh.symm.trans hf) (by decide)
  · rw [markRevealed_state, if_neg h]
    exact ⟨id, fun hne => absurd rfl hne, Or.inl⟩

theorem revealCore_guard_fail (fuel : Nat) (row col : Int) (g : Game)
    (h : ¬ (is_valid_position g row col = true ∧ g.state row col = CellState.Hidden)) :
    revealCore fuel row col g = g := by
  cases fuel with
  | zero => rfl
  | succ n =>
      show (if ¬ (is_valid_position g row col = true ∧ g.state row col = CellState.Hidden)
            then g else _) = g
      rw [if_pos h]

theorem revealCore_mine (fuel : Nat) (row col : Int) (g : Game)
    (hv : is_valid_position g row col = true) (hh : g.state row col = CellState.Hidden)
    (hm : g.mines row col = true) :
    revealCore (fuel + 1) row col g =
      { markRevealed g row col with gameOver := true, victory := false, mineSeen := true } := by
  show (if ¬ (is_valid_position g row col = true ∧ g.state row col = CellState.Hidden)
        then g else _) = _
  rw [if_neg (not_not_intro ⟨hv, hh⟩)]
  show (if (markRevealed g row col).mines row col = true then _ else _) = _
  rw [if_pos (show (markRevealed g row col).mines row col = true from hm)]

theorem revealCore_safe (fuel : Nat) (row col : Int) (g : Game)
    (hv : is_valid_position g row col = true) (hh : g.state row col = CellState.Hidden)
    (hm : g.mines row col = false) :
    revealCore (fuel + 1) row col g =
      (if check_victory
            (if g.numbers row col = 0
             then revealAdjWith (revealCore fuel)
                    (neighborOffsets.map fun d => (row + d.1, col + d.2))
                    (markRevealed g row col)
             else markRevealed g row col) = true
       then game_over_sequence true
            (if g.numbers row col = 0
             then revealAdjWith (revealCore fuel)
                    (neighborOffsets.map fun d => (row + d.1, col + d.2))
                    (markRevealed g row col)
             else markRevealed g row col)
       else
            (if g.numbers row col = 0
             then revealAdjWith (revealCore fuel)
                    (neighborOffsets.map fun d => (row + d.1, col + d.2))
                    (markRevealed g row col)
             else markRevealed g row col)) := by
  show (if ¬ (is_valid_position g row col = true ∧ g.state row col = CellState.Hidden)
        then g else _) = _
  rw [if_neg (not_not_intro ⟨hv, hh⟩)]
  show (if (markRevealed g row col).mines row col = true then _ else _) = _
  rw [if_neg (show ¬ ((markRevealed g row col).mines row col = true) from by
    show ¬ (g.mines row col = true)
    rw [hm]
    decide)]
  rfl

theorem victory_wrap_mono {g g2 : Game} (h : sameBoard g g2 ∧ stateMono g g2) :
    sameBoard g (if check_victory g2 = true then game_over_sequence true g2 else g2) ∧
    stateMono g (if check_victory g2 = true then game_over_sequence true g2 else g2) := by
  split
  · exact ⟨sameBoard_trans h.1 (gos_sameBoard true g2),
           stateMono_trans h.1.mines h.2 (gos_stateMono true g2)⟩
  · exact h

theorem revealAdjWith_mono (f : Int → Int → Game → Game)
    (hf : ∀ r c h, sameBoard h (f r c h) ∧ stateMono h (f r c h)) :
    ∀ (ns : List (Int × Int)) (g : Game),
      sameBoard g (revealAdjWith f ns g) ∧ stateMono g (revealAdjWith f ns g) := by
  intro ns
  induction ns with
  | nil => intro g; exact ⟨sameBoard_refl g, stateMono_refl g⟩
  | cons n ns ih =>
      intro g
      have hstep :
          revealAdjWith f (n :: ns) g =
            revealAdjWith f ns
              (if is_valid_position g n.1 n.2 = true ∧ g.state n.1 n.2 = CellState.Hidden
               then f n.1 n.2 g else g) := rfl
      rw [hstep]
      set g' := if is_valid_position g n.1 n.2 = true ∧ g.state n.1 n.2 = CellState.Hidden
                then f n.1 n.2 g else g with hg'
      have h1 : sameBoard g g' ∧ stateMono g g' := by
        rw [hg']
        split
        · exact hf n.1 n.2 g
        · exact ⟨sameBoard_refl g, stateMono_refl g⟩
      have h2 := ih g'
      exact ⟨sameBoard_trans h1.1 h2.1, stateMono_trans h1.1.mines h1.2 h2.2⟩

theorem revealCore_mono :
    ∀ (fuel : Nat) (row col : Int) (g : Game),
      sameBoard g (revealCore fuel row col g) ∧ stateMono g (revealCore fuel row col g) := by
  intro fuel
  induction fuel with
  | zero => intro row col g; exact ⟨sameBoard_refl g, stateMono_refl g⟩
  | succ fuel ih =>
      intro row col g
      by_cases hguard : is_valid_position g row col = true ∧ g.state row col = CellState.Hidden
      · by_cases hmine : g.mines row col = true
        · rw [revealCore_mine fuel row col g hguard.1 hguard.2 hmine]
          constructor
          · exact ⟨rfl, rfl, rfl, rfl, rfl, rfl, rfl⟩
          · exact fun x y => markRevealed_stateMono hguard.2 x y
        · rw [revealCore_safe fuel row col g hguard.1 hguard.2
            (by cases h : g.mines row col with
                | false => rfl
                | true => exact absurd h hmine)]
          have hmark : sameBoard g (markRevealed g row col) ∧ stateMono g (markRevealed g row col) :=
            ⟨markRevealed_sameBoard g row col, markRevealed_stateMono hguard.2⟩
          have h2 : sameBoard g (if g.numbers row col = 0
                      then revealAdjWith (revealCore fuel)
                             (neighborOffsets.map fun d => (row + d.1, col + d.2))
                             (markRevealed g row col)
                      else markRevealed g row col) ∧
              stateMono g (if g.numbers row col = 0
                      then revealAdjWith (revealCore fuel)
                             (neighborOffsets.map fun d => (row + d.1, col + d.2))
                             (markRevealed g row col)
                      else markRevealed g row col) := by
            split
            · have hadj := revealAdjWith_mono (revealCore fuel) (fun r c h => ih r c h)
                (neighborOffsets.map fun d => (row + d.1, col + d.2)) (markRevealed g row col)
              exact ⟨sameBoard_trans hmark.1 hadj.1,
                     stateMono_trans hmark.1.mines hmark.2 hadj.2⟩
            · exact hmark
          exact victory_wrap_mono h2
      · rw [revealCore_guard_fail (fuel + 1) row col g hguard]
        exact ⟨sameBoard_refl g, stateMono_refl g⟩

/-! ## Transport along `sameBoard`, and counting lemmas -/

theorem valid_sameBoard {g g' : Game} (h : sameBoard g g') (r c : Int) :
    is_valid_position g' r c = is_valid_position g r c := by
  unfold is_valid_position
  rw [h.width, h.height]

theorem gridCells_sameBoard {g g' : Game} (h : sameBoard g g') :
    gridCells g' = gridCells g := by
  unfold gridCells
  rw [h.width, h.height]

theorem target_sameBoard {g g' : Game} (h : sameBoard g g') : target g' = target g := by
  unfold target
  rw [h.width, h.height, h.mineCount]

theorem count_adjacent_sameBoard {g g' : Game} (h : sameBoard g g') (r c : Int) :
    count_adjacent_mines g' r c = count_adjacent_mines g r c := by
  unfold count_adjacent_mines
  apply List.countP_congr
  intro d _
  rw [valid_sameBoard h, h.mines]

theorem minesCard_sameBoard {g g' : Game} (h : sameBoard g g') :
    minesCard g' = minesCard g := by
  unfold minesCard
  rw [gridCells_sameBoard h, h.mines]

theorem numbersFaithful_sameBoard {g g' : Game} (h : sameBoard g g')
    (hf : numbersFaithful g) : numbersFaithful g' := by
  intro p hp hm
  rw [gridCells_sameBoard h] at hp
  rw [h.mines] at hm
  rw [h.numbers, count_adjacent_sameBoard h]
  exact hf p hp hm

theorem nonmine_card_target {g : Game} (hmc : minesCard g = g.mineCount) :
    ((((gridCells g).filter fun p => g.mines (p.1 : Int) (p.2 : Int) = false).card : Nat) : Int) =
      target g := by
  have hsplit := Finset.filter_card_add_filter_neg_card_eq_card (s := gridCells g)
    (p := fun p : Nat × Nat => g.mines (p.1 : Int) (p.2 : Int) = true)
  have hneg : ((gridCells g).filter fun p : Nat × Nat =>
        g.mines (p.1 : Int) (p.2 : Int) = false).card
      = ((gridCells g).filter fun p : Nat × Nat =>
        ¬ g.mines (p.1 : Int) (p.2 : Int) = true).card :=
    filter_flip_congr fun p _ => by simp
  have hcard : (gridCells g).card = g.height * g.width := by
    unfold gridCells
    rw [Finset.card_product, Finset.card_range, Finset.card_range]
  unfold minesCard at hmc
  unfold target
  have hwh : g.height * g.width = g.width * g.height := Nat.mul_comm _ _
  omega

theorem revNM_subset_nonmine (g : Game) :
    ((gridCells g).filter fun p =>
        g.state (p.1 : Int) (p.2 : Int) = CellState.Revealed ∧
        g.mines (p.1 : Int) (p.2 : Int) = false) ⊆
      ((gridCells g).filter fun p => g.mines (p.1 : Int) (p.2 : Int) = false) := by
  intro p hp
  rw [Finset.mem_filter] at hp ⊢
  exact ⟨hp.1, hp.2.2⟩

theorem revNM_le_target {g : Game} (hmc : minesCard g = g.mineCount) :
    (revealedNonMineCard g : Int) ≤ target g := by
  have hle : revealedNonMineCard g ≤
      ((gridCells g).filter fun p => g.mines (p.1 : Int) (p.2 : Int) = false).card :=
    Finset.card_le_card (revNM_subset_nonmine g)
  have := nonmine_card_target hmc
  omega

theorem revNM_lt_target {g : Game} (hmc : minesCard g = g.mineCount) {r c : Int}
    (hv : is_valid_position g r c = true) (hm : g.mines r c = false)
    (hnr : g.state r c ≠ CellState.Revealed) :
    (revealedNonMineCard g : Int) < target g := by
  obtain ⟨hmem, hr, hc⟩ := valid_toNat hv
  have hss : ((gridCells g).filter fun p =>
        g.state (p.1 : Int) (p.2 : Int) = CellState.Revealed ∧
        g.mines (p.1 : Int) (p.2 : Int) = false) ⊂
      ((gridCells g).filter fun p => g.mines (p.1 : Int) (p.2 : Int) = false) := by
    rw [Finset.ssubset_iff_of_subset (revNM_subset_nonmine g)]
    refine ⟨(r.toNat, c.toNat), ?_, ?_⟩
    · rw [Finset.mem_filter]
      refine ⟨hmem, ?_⟩
      show g.mines ((r.toNat : Nat) : Int) ((c.toNat : Nat) : Int) = false
      rw [hr, hc]
      exact hm
    · rw [Finset.mem_filter]
      rintro ⟨-, hrev, -⟩
      rw [hr, hc] at hrev
      exact hnr hrev
  have hlt : revealedNonMineCard g <
      ((gridCells g).filter fun p => g.mines (p.1 : Int) (p.2 : Int) = false).card :=
    Finset.card_lt_card hss
  have := nonmine_card_target hmc
  omega

theorem all_nonmine_revealed {g : Game} (hmc : minesCard g = g.mineCount)
    (hcnt : (revealedNonMineCard g : Int) = target g) :
    ∀ p ∈ gridCells g, g.mines (p.1 : Int) (p.2 : Int) = false →
      g.state (p.1 : Int) (p.2 : Int) = CellState.Revealed := by
  by_contra hcon
  push_neg at hcon
  obtain ⟨p, hp, hm, hnr⟩ := hcon
  have := revNM_lt_target hmc (valid_of_mem hp) hm hnr
  omega

/-! ## Effect of the atomic steps on the revealed-non-mine count -/

theorem revNM_markRevealed {g : Game} {row col : Int}
    (hv : is_valid_position g row col = true) (hh : g.state row col = CellState.Hidden)
    (hm : g.mines row col = false) :
    revealedNonMineCard (markRevealed g row col) = revealedNonMineCard g + 1 := by
  obtain ⟨hmem, hr, hc⟩ := valid_toNat hv
  show ((gridCells g).filter fun p =>
      (markRevealed g row col).state (p.1 : Int) (p.2 : Int) = CellState.Revealed ∧
      g.mines (p.1 : Int) (p.2 : Int) = false).card = _ + 1
  apply filter_flip_on hmem
  · intro q hq hne
    have hcond : ¬((q.1 : Int) = row ∧ (q.2 : Int) = col) := by
      rintro ⟨h1, h2⟩
      apply hne
      have e1 : q.1 = row.toNat := by omega
      have e2 : q.2 = col.toNat := by omega
      cases q
      simp_all
    rw [markRevealed_state, if_neg hcond]
  · rw [hr, hc]
    rw [hh]
    rintro ⟨h1, -⟩
    exact absurd h1 (by decide)
  · rw [markRevealed_state, hr, hc, if_pos ⟨rfl, rfl⟩]
    exact ⟨rfl, hm⟩

theorem revNM_markRevealed_mine {g : Game} {row col : Int}
    (hm : g.mines row col = true) :
    revealedNonMineCard (markRevealed g row col) = revealedNonMineCard g := by
  show ((gridCells g).filter fun p =>
      (markRevealed g row col).state (p.1 : Int) (p.2 : Int) = CellState.Revealed ∧
      g.mines (p.1 : Int) (p.2 : Int) = false).card = _
  apply filter_flip_congr
  intro q hq
  by_cases hcond : (q.1 : Int) = row ∧ (q.2 : Int) = col
  · rw [markRevealed_state, if_pos hcond]
    obtain ⟨h1, h2⟩ := hcond
    rw [h1, h2, hm]
    constructor
    · rintro ⟨-, h⟩
      exact absurd h (by decide)
    · rintro ⟨-, h⟩
      exact absurd h (by decide)
  · rw [markRevealed_state, if_neg hcond]

theorem revNM_gos (won : Bool) (g : Game) :
    revealedNonMineCard (game_over_sequence won g) = revealedNonMineCard g := by
  show ((gridCells g).filter fun p =>
      (game_over_sequence won g).state (p.1 : Int) (p.2 : Int) = CellState.Revealed ∧
      g.mines (p.1 : Int) (p.2 : Int) = false).card = _
  apply filter_flip_congr
  intro q hq
  have hs : (game_over_sequence won g).state (q.1 : Int) (q.2 : Int) =
      if is_valid_position g (q.1 : Int) (q.2 : Int) = true ∧
         g.mines (q.1 : Int) (q.2 : Int) = true then CellState.Revealed
      else g.state (q.1 : Int) (q.2 : Int) := rfl
  by_cases hcond : is_valid_position g (q.1 : Int) (q.2 : Int) = true ∧
      g.mines (q.1 : Int) (q.2 : Int) = true
  · rw [hs, if_pos hcond]
    rw [hcond.2]
    constructor
    · rintro ⟨-, h⟩
      exact absurd h (by decide)
    · rintro ⟨-, h⟩
      exact absurd h (by decide)
  · rw [hs, if_neg hcond]

/-! ## Flag preservation lemmas -/

theorem flagsKept_refl (g : Game) : flagsKept g g := fun _ _ hf => Or.inl hf

theorem flagsKept_comp {g g' g'' : Game} (hm : g'.mines = g.mines)
    (h1 : flagsKept g g') (h2 : flagsKept g' g'')
    (hstay : g'.gameOver = true → g'' = g') : flagsKept g g'' := by
  intro x y hf
  rcases h1 x y hf with hf' | ⟨hmine, hrev, hgo, hvic⟩
  · rcases h2 x y hf' with hf'' | ⟨hmine', hrev', hgo', hvic'⟩
    · exact Or.inl hf''
    · rw [hm] at hmine'
      exact Or.inr ⟨hmine', hrev', hgo', hvic'⟩
  · rw [hstay hgo]
    exact Or.inr ⟨hmine, hrev, hgo, hvic⟩

theorem flagsKept_comp' {g g' g'' : Game} (hm : g'.mines = g.mines)
    (h1 : flagsKept g g') (h2 : flagsKept g' g'')
    (hrev2 : ∀ x y, g'.state x y = CellState.Revealed → g''.state x y = CellState.Revealed)
    (hgo2 : g'.gameOver = true → g''.gameOver = true ∧ (g'.victory = true → g''.victory = true)) :
    flagsKept g g'' := by
  intro x y hf
  rcases h1 x y hf with hf' | ⟨hmine, hrev, hgo, hvic⟩
  · rcases h2 x y hf' with hf'' | ⟨hmine', hrev', hgo', hvic'⟩
    · exact Or.inl hf''
    · rw [hm] at hmine'
      exact Or.inr ⟨hmine', hrev', hgo', hvic'⟩
  · obtain ⟨hgo'', hvic''⟩ := hgo2 hgo
    exact Or.inr ⟨hmine, hrev2 x y hrev, hgo'', hvic'' hvic⟩

theorem flagsKept_markRevealed {g : Game} {row col : Int}
    (hh : g.state row col = CellState.Hidden) :
    flagsKept g (markRevealed g row col) := by
  intro x y hf
  left
  have hcond : ¬(x = row ∧ y = col) := by
    rintro ⟨rfl, rfl⟩
    rw [hh] at hf
    exact absurd hf (by decide)
  rw [markRevealed_state, if_neg hcond]
  exact hf

theorem flagsKept_gos (g : Game) : flagsKept g (game_over_sequence true g) := by
  intro x y hf
  have hs : (game_over_sequence true g).state x y =
      if is_valid_position g x y = true ∧ g.mines x y = true then CellState.Revealed
      else g.state x y := rfl
  by_cases hcond : is_valid_position g x y = true ∧ g.mines x y = true
  · rw [hs, if_pos hcond]
    exact Or.inr ⟨hcond.2, rfl, rfl, rfl⟩
  · rw [hs, if_neg hcond]
    exact Or.inl hf

/-! ## Neighbors of a zero-adjacency cell are mine-free -/

theorem zero_adj_nonmine {g : Game} (hf : numbersFaithful g) {row col : Int}
    (hv : is_valid_position g row col = true) (hm : g.mines row col = false)
    (h0 : g.numbers row col = 0) :
    ∀ n ∈ (neighborOffsets.map fun d => (row + d.1, col + d.2)),
      is_valid_position g n.1 n.2 = true → g.mines n.1 n.2 = false := by
  intro n hn hvn
  obtain ⟨hmem, hr, hc⟩ := valid_toNat hv
  have hnum : g.numbers row col = count_adjacent_mines g row col := by
    have := hf _ hmem (by rw [hr, hc]; exact hm)
    rw [hr, hc] at this
    exact this
  rw [hnum, count_adjacent_mines, List.countP_eq_zero] at h0
  rw [List.mem_map] at hn
  obtain ⟨d, hd, rfl⟩ := hn
  have hnp := h0 d hd
  cases hmv : g.mines (row + d.1) (col + d.2) with
  | false => rfl
  | true =>
      exfalso
      apply hnp
      show (is_valid_position g (row + d.1) (col + d.2) &&
        g.mines (row + d.1) (col + d.2)) = true
      rw [hvn, hmv]
      rfl

/-! ## The cascade preserves the core invariant -/

theorem false_of_true_of_false {b : Bool} (h1 : b = true) (h2 : b = false) : False := by
  rw [h2] at h1
  exact Bool.noConfusion h1

theorem revealAdjWith_cnt (fuel : Nat)
    (ihf : ∀ (row col : Int) (h : Game), CoreInv h → h.mines row col = false →
      CoreInv (revealCore fuel row col h) ∧
      (h.gameOver = true → revealCore fuel row col h = h) ∧
      flagsKept h (revealCore fuel row col h)) :
    ∀ (ns : List (Int × Int)) (g : Game), CoreInv g →
      (∀ n ∈ ns, is_valid_position g n.1 n.2 = true → g.mines n.1 n.2 = false) →
      CoreInv (revealAdjWith (revealCore fuel) ns g) ∧
      (g.gameOver = true → revealAdjWith (revealCore fuel) ns g = g) ∧
      flagsKept g (revealAdjWith (revealCore fuel) ns g) := by
  intro ns
  induction ns with
  | nil => intro g hinv _; exact ⟨hinv, fun _ => rfl, flagsKept_refl g⟩
  | cons n ns ih =>
      intro g hinv hns
      have hstep : revealAdjWith (revealCore fuel) (n :: ns) g =
          revealAdjWith (revealCore fuel) ns
            (if is_valid_position g n.1 n.2 = true ∧ g.state n.1 n.2 = CellState.Hidden
             then revealCore fuel n.1 n.2 g else g) := rfl
      rw [hstep]
      by_cases hc : is_valid_position g n.1 n.2 = true ∧ g.state n.1 n.2 = CellState.Hidden
      · rw [if_pos hc]
        have hmine := hns n (List.mem_cons_self n ns) hc.1
        have hcall := ihf n.1 n.2 g hinv hmine
        have hsb : sameBoard g (revealCore fuel n.1 n.2 g) := (revealCore_mono fuel n.1 n.2 g).1
        have hns' : ∀ m ∈ ns, is_valid_position (revealCore fuel n.1 n.2 g) m.1 m.2 = true →
            (revealCore fuel n.1 n.2 g).mines m.1 m.2 = false := by
          intro m hm hvm
          rw [valid_sameBoard hsb] at hvm
          rw [hsb.mines]
          exact hns m (List.mem_cons_of_mem n hm) hvm
        have hrest := ih (revealCore fuel n.1 n.2 g) hcall.1 hns'
        refine ⟨hrest.1, ?_, ?_⟩
        · intro hgo
          rw [hcall.2.1 hgo]
          exact (ih g hinv (fun m hm => hns m (List.mem_cons_of_mem n hm))).2.1 hgo
        · exact flagsKept_comp hsb.mines hcall.2.2 hrest.2.2 (fun hgo => hrest.2.1 hgo)
      · rw [if_neg hc]
        exact ih g hinv (fun m hm => hns m (List.mem_cons_of_mem n hm))

theorem revealCore_cnt :
    ∀ (fuel : Nat) (row col : Int) (g : Game), CoreInv g → g.mines row col = false →
      CoreInv (revealCore fuel row col g) ∧
      (g.gameOver = true → revealCore fuel row col g = g) ∧
      flagsKept g (revealCore fuel row col g) := by
  intro fuel
  induction fuel with
  | zero => intro row col g hinv _; exact ⟨hinv, fun _ => rfl, flagsKept_refl g⟩
  | succ fuel ih =>
      intro row col g hinv hm
      by_cases hguard : is_valid_position g row col = true ∧ g.state row col = CellState.Hidden
      · obtain ⟨hv, hh⟩ := hguard
        have hgo : g.gameOver = false := by
          cases hgoc : g.gameOver with
          | false => rfl
          | true =>
              exfalso
              obtain ⟨hall, -⟩ := hinv.vicDone hgoc
              obtain ⟨hmem, hr, hc⟩ := valid_toNat hv
              have hrev := hall _ hmem
              rw [hr, hc] at hrev
              rw [hrev] at hh
              exact absurd hh (by decide)
        have hstrict : (revealedNonMineCard g : Int) < target g :=
          revNM_lt_target hinv.mcard hv hm (by rw [hh]; decide)
        have hinv1 : CoreInv (markRevealed g row col) := by
          refine ⟨?_, ?_, ?_, ?_, ?_, ?_, ?_⟩
          · rw [minesCard_sameBoard (markRevealed_sameBoard g row col)]
            exact hinv.mcard
          · exact numbersFaithful_sameBoard (markRevealed_sameBoard g row col) hinv.faithful
          · exact hinv.notSeen
          · show g.revealedCount + 1 = ((revealedNonMineCard (markRevealed g row col) : Nat) : Int)
            rw [revNM_markRevealed hv hh hm, hinv.countEq]
            push_cast
            ring
          · show g.revealedCount + 1 ≤ target g
            have := hinv.countEq
            omega
          · intro hgo2
            exact (false_of_true_of_false (b := g.gameOver) hgo2 hgo).elim
          · intro hgo2
            exact (false_of_true_of_false (b := g.gameOver) hgo2 hgo).elim
        rw [revealCore_safe fuel row col g hv hh hm]
        set gmid := if g.numbers row col = 0
                    then revealAdjWith (revealCore fuel)
                           (neighborOffsets.map fun d => (row + d.1, col + d.2))
                           (markRevealed g row col)
                    else markRevealed g row col with hgmid
        have hmid : CoreInv gmid ∧ flagsKept (markRevealed g row col) gmid ∧
            sameBoard (markRevealed g row col) gmid := by
          rw [hgmid]
          by_cases h0 : g.numbers row col = 0
          · rw [if_pos h0]
            have hnb : ∀ n ∈ (neighborOffsets.map fun d => (row + d.1, col + d.2)),
                is_valid_position (markRevealed g row col) n.1 n.2 = true →
                (markRevealed g row col).mines n.1 n.2 = false := by
              intro n hn hvn
              exact zero_adj_nonmine hinv.faithful hv hm h0 n hn hvn
            have hadj := revealAdjWith_cnt fuel (fun r c h hi hm2 => ih r c h hi hm2) _
              (markRevealed g row col) hinv1 hnb
            exact ⟨hadj.1, hadj.2.2,
              (revealAdjWith_mono (revealCore fuel) (fun r c h => revealCore_mono fuel r c h)
                _ (markRevealed g row col)).1⟩
          · rw [if_neg h0]
            exact ⟨hinv1, flagsKept_refl _, sameBoard_refl _⟩
        have hflag1 : flagsKept g (markRevealed g row col) := flagsKept_markRevealed hh
        have hsb1 : sameBoard g (markRevealed g row col) := markRevealed_sameBoard g row col
        have hsbmid : sameBoard g gmid := sameBoard_trans hsb1 hmid.2.2
        have hflagmid : flagsKept g gmid :=
          flagsKept_comp hsb1.mines hflag1 hmid.2.1
            (fun hgo1 => (false_of_true_of_false (b := g.gameOver) hgo1 hgo).elim)
        by_cases hcv : check_victory gmid = true
        · rw [if_pos hcv]
          have hcnt : gmid.revealedCount = target g := by
            have hc2 : gmid.revealedCount =
                (gmid.width * gmid.height : Int) - (gmid.mineCount : Int) :=
              of_decide_eq_true hcv
            rw [hsbmid.width, hsbmid.height, hsbmid.mineCount] at hc2
            exact hc2
          have htg : target (game_over_sequence true gmid) = target g := by
            rw [target_sameBoard (gos_sameBoard true gmid), target_sameBoard hsbmid]
          have hall : ∀ p ∈ gridCells gmid, gmid.mines (p.1 : Int) (p.2 : Int) = false →
              gmid.state (p.1 : Int) (p.2 : Int) = CellState.Revealed := by
            apply all_nonmine_revealed hmid.1.mcard
            rw [← hmid.1.countEq, hcnt, target_sameBoard hsbmid]
          refine ⟨?_, fun hgo2 => (false_of_true_of_false (b := g.gameOver) hgo2 hgo).elim, ?_⟩
          · refine ⟨?_, ?_, ?_, ?_, ?_, ?_, ?_⟩
            · rw [minesCard_sameBoard (gos_sameBoard true gmid)]
              exact hmid.1.mcard
            · exact numbersFaithful_sameBoard (gos_sameBoard true gmid) hmid.1.faithful
            · exact hmid.1.notSeen
            · show gmid.revealedCount =
                ((revealedNonMineCard (game_over_sequence true gmid) : Nat) : Int)
              rw [revNM_gos]
              exact hmid.1.countEq
            · show gmid.revealedCount ≤ target (game_over_sequence true gmid)
              rw [htg, hcnt]
            · exact fun _ => rfl
            · intro _
              constructor
              · intro p hp
                by_cases hpm : gmid.mines (p.1 : Int) (p.2 : Int) = true
                · show (if is_valid_position gmid (p.1 : Int) (p.2 : Int) = true ∧
                          gmid.mines (p.1 : Int) (p.2 : Int) = true
                        then CellState.Revealed
                        else gmid.state (p.1 : Int) (p.2 : Int)) = CellState.Revealed
                  rw [if_pos ⟨valid_of_mem hp, hpm⟩]
                · have hpm' : gmid.mines (p.1 : Int) (p.2 : Int) = false := by
                    cases hx : gmid.mines (p.1 : Int) (p.2 : Int) with
                    | false => rfl
                    | true => exact absurd hx hpm
                  have hrev := hall p hp hpm'
                  show (if is_valid_position gmid (p.1 : Int) (p.2 : Int) = true ∧
                          gmid.mines (p.1 : Int) (p.2 : Int) = true
                        then CellState.Revealed
                        else gmid.state (p.1 : Int) (p.2 : Int)) = CellState.Revealed
                  rw [if_neg (fun hand => hpm hand.2)]
                  exact hrev
              · show gmid.revealedCount = target (game_over_sequence true gmid)
                rw [htg, hcnt]
          · exact flagsKept_comp' hsbmid.mines hflagmid (flagsKept_gos gmid)
              (fun x y hr => (gos_stateMono true gmid x y).1 hr)
              (fun _ => ⟨rfl, fun _ => rfl⟩)
        · rw [if_neg hcv]
          exact ⟨hmid.1,
            fun hgo2 => (false_of_true_of_false (b := g.gameOver) hgo2 hgo).elim, hflagmid⟩
      · rw [revealCore_guard_fail _ _ _ _ hguard]
        exact ⟨hinv, fun _ => rfl, flagsKept_refl g⟩

theorem revealCore_strict (fuel : Nat) (row col : Int) (g : Game)
    (hv : is_valid_position g row col = true) (hh : g.state row col = CellState.Hidden)
    (hm : g.mines row col = false)
    (hgo : (revealCore (fuel + 1) row col g).gameOver = false) :
    (revealCore (fuel + 1) row col g).revealedCount ≠ target g := by
  rw [revealCore_safe fuel row col g hv hh hm] at hgo ⊢
  set gmid := if g.numbers row col = 0
              then revealAdjWith (revealCore fuel)
                     (neighborOffsets.map fun d => (row + d.1, col + d.2))
                     (markRevealed g row col)
              else markRevealed g row col with hgmid
  by_cases hcv : check_victory gmid = true
  · rw [if_pos hcv] at hgo
    have hgo2 : (game_over_sequence true gmid).gameOver = true := rfl
    rw [hgo2] at hgo
    exact Bool.noConfusion hgo
  · rw [if_neg hcv]
    have hsb : sameBoard g gmid := by
      rw [hgmid]
      by_cases h0 : g.numbers row col = 0
      · rw [if_pos h0]
        exact sameBoard_trans (markRevealed_sameBoard g row col)
          (revealAdjWith_mono (revealCore fuel) (fun r c h => revealCore_mono fuel r c h)
            _ (markRevealed g row col)).1
      · rw [if_neg h0]
        exact markRevealed_sameBoard g row col
    intro heq
    apply hcv
    show decide (gmid.revealedCount =
      (gmid.width * gmid.height : Int) - (gmid.mineCount : Int)) = true
    rw [decide_eq_true_eq, hsb.width, hsb.height, hsb.mineCount, heq]
    rfl

/-! ## Hidden-cell bookkeeping and basic cascade facts -/

theorem hidden_of_mono {g g' : Game} (h : stateMono g g') {x y : Int}
    (hh' : g'.state x y = CellState.Hidden) : g.state x y = CellState.Hidden := by
  by_cases he : g'.state x y = g.state x y
  · rw [← he]
    exact hh'
  · have := (h x y).2.1 he
    rw [this] at hh'
    exact absurd hh' (by decide)

theorem nonHidden_mono {g g' : Game} (h : stateMono g g') {x y : Int}
    (hnh : g.state x y ≠ CellState.Hidden) : g'.state x y ≠ CellState.Hidden :=
  fun hh' => hnh (hidden_of_mono h hh')

theorem hiddenCard_mono {g g' : Game} (hsb : sameBoard g g') (hmono : stateMono g g') :
    hiddenCard g' ≤ hiddenCard g := by
  unfold hiddenCard stateCard
  rw [gridCells_sameBoard hsb]
  apply Finset.card_le_card
  intro p hp
  rw [Finset.mem_filter] at hp ⊢
  exact ⟨hp.1, hidden_of_mono hmono hp.2⟩

theorem hiddenCard_markRevealed {g : Game} {row col : Int}
    (hv : is_valid_position g row col = true) (hh : g.state row col = CellState.Hidden) :
    hiddenCard g = hiddenCard (markRevealed g row col) + 1 := by
  obtain ⟨hmem, hr, hc⟩ := valid_toNat hv
  show ((gridCells g).filter fun p =>
      g.state (p.1 : Int) (p.2 : Int) = CellState.Hidden).card =
    ((gridCells g).filter fun p =>
      (markRevealed g row col).state (p.1 : Int) (p.2 : Int) = CellState.Hidden).card + 1
  apply filter_flip_on hmem
  · intro q hq hne
    have hcond : ¬((q.1 : Int) = row ∧ (q.2 : Int) = col) := by
      rintro ⟨h1, h2⟩
      apply hne
      have e1 : q.1 = row.toNat := by omega
      have e2 : q.2 = col.toNat := by omega
      cases q
      simp_all
    rw [markRevealed_state, if_neg hcond]
  · rw [markRevealed_state, hr, hc, if_pos ⟨rfl, rfl⟩]
    decide
  · rw [hr, hc]
    exact hh

theorem hiddenCard_pos {g : Game} {row col : Int}
    (hv : is_valid_position g row col = true) (hh : g.state row col = CellState.Hidden) :
    1 ≤ hiddenCard g := by
  obtain ⟨hmem, hr, hc⟩ := valid_toNat hv
  apply Finset.card_pos.mpr
  refine ⟨(row.toNat, col.toNat), ?_⟩
  rw [Finset.mem_filter]
  refine ⟨hmem, ?_⟩
  show g.state ((row.toNat : Nat) : Int) ((col.toNat : Nat) : Int) = CellState.Hidden
  rw [hr, hc]
  exact hh

theorem revealCore_reveals (fuel : Nat) (row col : Int) (g : Game)
    (hv : is_valid_position g row col = true) (hh : g.state row col = CellState.Hidden) :
    (revealCore (fuel + 1) row col g).state row col = CellState.Revealed := by
  have hg1 : (markRevealed g row col).state row col = CellState.Revealed := by
    rw [markRevealed_state, if_pos ⟨rfl, rfl⟩]
  by_cases hmine : g.mines row col = true
  · rw [revealCore_mine fuel row col g hv hh hmine]
    exact hg1
  · have hm : g.mines row col = false := by
      cases hx : g.mines row col with
      | false => rfl
      | true => exact absurd hx hmine
    rw [revealCore_safe fuel row col g hv hh hm]
    set gmid := if g.numbers row col = 0
                then revealAdjWith (revealCore fuel)
                       (neighborOffsets.map fun d => (row + d.1, col + d.2))
                       (markRevealed g row col)
                else markRevealed g row col with hgmid
    have hmidrev : gmid.state row col = CellState.Revealed := by
      rw [hgmid]
      by_cases h0 : g.numbers row col = 0
      · rw [if_pos h0]
        exact ((revealAdjWith_mono (revealCore fuel)
          (fun r c h => revealCore_mono fuel r c h) _ (markRevealed g row col)).2
            row col).1 hg1
      · rw [if_neg h0]
        exact hg1
    by_cases hcv : check_victory gmid = true
    · rw [if_pos hcv]
      exact (gos_stateMono true gmid row col).1 hmidrev
    · rw [if_neg hcv]
      exact hmidrev

/-! ## Saturation: a newly revealed zero cell has no Hidden neighbor left -/

theorem revealAdjWith_sat (fuel : Nat)
    (ihc : ∀ (row col : Int) (h : Game), hiddenCard h < fuel →
      ∀ x y : Int, is_valid_position h x y = true → h.state x y = CellState.Hidden →
        h.mines x y = false → h.numbers x y = 0 →
        (revealCore fuel row col h).state x y = CellState.Revealed →
        ∀ d ∈ neighborOffsets, is_valid_position h (x + d.1) (y + d.2) = true →
          (revealCore fuel row col h).state (x + d.1) (y + d.2) ≠ CellState.Hidden) :
    ∀ (ns : List (Int × Int)) (g : Game), hiddenCard g < fuel →
      (∀ x y : Int, is_valid_position g x y = true → g.state x y = CellState.Hidden →
        g.mines x y = false → g.numbers x y = 0 →
        (revealAdjWith (revealCore fuel) ns g).state x y = CellState.Revealed →
        ∀ d ∈ neighborOffsets, is_valid_position g (x + d.1) (y + d.2) = true →
          (revealAdjWith (revealCore fuel) ns g).state (x + d.1) (y + d.2) ≠
            CellState.Hidden) ∧
      (∀ n ∈ ns, is_valid_position g n.1 n.2 = true →
        (revealAdjWith (revealCore fuel) ns g).state n.1 n.2 ≠ CellState.Hidden) := by
  intro ns
  induction ns with
  | nil =>
      intro g hfuel
      constructor
      · intro x y _ hhx _ _ hres _ _ _
        exfalso
        have : CellState.Hidden = CellState.Revealed := hhx.symm.trans hres
        exact absurd this (by decide)
      · intro n hn
        exact absurd hn (List.not_mem_nil n)
  | cons n ns ih =>
      intro g hfuel
      have hstep : revealAdjWith (revealCore fuel) (n :: ns) g =
          revealAdjWith (revealCore fuel) ns
            (if is_valid_position g n.1 n.2 = true ∧ g.state n.1 n.2 = CellState.Hidden
             then revealCore fuel n.1 n.2 g else g) := rfl
      by_cases hc : is_valid_position g n.1 n.2 = true ∧ g.state n.1 n.2 = CellState.Hidden
      · -- the head neighbor is actually revealed by a recursive call
        have hfpos : 1 ≤ fuel := lt_of_lt_of_le (hiddenCard_pos hc.1 hc.2) hfuel.le
        obtain ⟨fuel0, rfl⟩ : ∃ k, fuel = k + 1 := ⟨fuel - 1, by omega⟩
        have hgstep : revealAdjWith (revealCore (fuel0 + 1)) (n :: ns) g =
            revealAdjWith (revealCore (fuel0 + 1)) ns (revealCore (fuel0 + 1) n.1 n.2 g) := by
          rw [hstep, if_pos hc]
        have hsbstep : sameBoard g (revealCore (fuel0 + 1) n.1 n.2 g) :=
          (revealCore_mono (fuel0 + 1) n.1 n.2 g).1
        have hmonostep : stateMono g (revealCore (fuel0 + 1) n.1 n.2 g) :=
          (revealCore_mono (fuel0 + 1) n.1 n.2 g).2
        have hhidstep : hiddenCard (revealCore (fuel0 + 1) n.1 n.2 g) < fuel0 + 1 :=
          lt_of_le_of_lt (hiddenCard_mono hsbstep hmonostep) hfuel
        have hrest := ih (revealCore (fuel0 + 1) n.1 n.2 g) hhidstep
        have hmonorest : stateMono (revealCore (fuel0 + 1) n.1 n.2 g)
            (revealAdjWith (revealCore (fuel0 + 1)) ns (revealCore (fuel0 + 1) n.1 n.2 g)) :=
          (revealAdjWith_mono (revealCore (fuel0 + 1))
            (fun r c h => revealCore_mono (fuel0 + 1) r c h) ns _).2
        constructor
        · intro x y hvx hhx hmx hnx hres d hd hvd
          rw [hgstep] at hres ⊢
          by_cases hxstep : (revealCore (fuel0 + 1) n.1 n.2 g).state x y = CellState.Hidden
          · -- x survived the head call Hidden: the tail analysis applies
            have hvx' : is_valid_position (revealCore (fuel0 + 1) n.1 n.2 g) x y = true := by
              rw [valid_sameBoard hsbstep]
              exact hvx
            have hmx' : (revealCore (fuel0 + 1) n.1 n.2 g).mines x y = false := by
              rw [hsbstep.mines]
              exact hmx
            have hnx' : (revealCore (fuel0 + 1) n.1 n.2 g).numbers x y = 0 := by
              rw [hsbstep.numbers]
              exact hnx
            have hvd' : is_valid_position (revealCore (fuel0 + 1) n.1 n.2 g)
                (x + d.1) (y + d.2) = true := by
              rw [valid_sameBoard hsbstep]
              exact hvd
            exact hrest.1 x y hvx' hxstep hmx' hnx' hres d hd hvd'
          · -- x was revealed inside the head call: its neighbors were handled there
            have hxrev : (revealCore (fuel0 + 1) n.1 n.2 g).state x y = CellState.Revealed := by
              by_cases he : (revealCore (fuel0 + 1) n.1 n.2 g).state x y = g.state x y
              · rw [he] at hxstep
                exact absurd hhx hxstep
              · exact (hmonostep x y).2.1 he
            have hnb := ihc n.1 n.2 g hfuel x y hvx hhx hmx hnx hxrev d hd hvd
            exact nonHidden_mono hmonorest hnb
        · intro m hm hvm
          rw [hgstep]
          rcases List.mem_cons.mp hm with rfl | hmem
          · -- the head neighbor itself: revealed by its own call, then kept
            have hrev : (revealCore (fuel0 + 1) m.1 m.2 g).state m.1 m.2 =
                CellState.Revealed := revealCore_reveals fuel0 m.1 m.2 g hc.1 hc.2
            have := (hmonorest m.1 m.2).1 hrev
            rw [this]
            decide
          · have hvm' : is_valid_position (revealCore (fuel0 + 1) n.1 n.2 g) m.1 m.2 = true := by
              rw [valid_sameBoard hsbstep]
              exact hvm
            exact hrest.2 m hmem hvm'
      · -- the head neighbor is skipped
        have hgstep : revealAdjWith (revealCore fuel) (n :: ns) g =
            revealAdjWith (revealCore fuel) ns g := by
          rw [hstep, if_neg hc]
        have hrest := ih g hfuel
        constructor
        · intro x y hvx hhx hmx hnx hres d hd hvd
          rw [hgstep] at hres ⊢
          exact hrest.1 x y hvx hhx hmx hnx hres d hd hvd
        · intro m hm hvm
          rw [hgstep]
          rcases List.mem_cons.mp hm with rfl | hmem
          · -- skipped because it was not Hidden; it can only have moved to Revealed
            have hnh : g.state m.1 m.2 ≠ CellState.Hidden := by
              intro hx
              exact hc ⟨hvm, hx⟩
            exact nonHidden_mono
              (revealAdjWith_mono (revealCore fuel)
                (fun r c h => revealCore_mono fuel r c h) ns g).2 hnh
          · exact hrest.2 m hmem hvm

theorem revealCore_sat :
    ∀ (fuel : Nat) (row col : Int) (g : Game), hiddenCard g < fuel →
      ∀ x y : Int, is_valid_position g x y = true → g.state x y = CellState.Hidden →
        g.mines x y = false → g.numbers x y = 0 →
        (revealCore fuel row col g).state x y = CellState.Revealed →
        ∀ d ∈ neighborOffsets, is_valid_position g (x + d.1) (y + d.2) = true →
          (revealCore fuel row col g).state (x + d.1) (y + d.2) ≠ CellState.Hidden := by
  intro fuel
  induction fuel with
  | zero => intro row col g hfuel; exact absurd hfuel (Nat.not_lt_zero _)
  | succ fuel ih =>
      intro row col g hfuel x y hvx hhx hmx hnx hres d hd hvd
      by_cases hguard : is_valid_position g row col = true ∧ g.state row col = CellState.Hidden
      · obtain ⟨hv, hh⟩ := hguard
        by_cases hmine : g.mines row col = true
        · -- mine branch: only (row, col) changed, and it is a mine while x is not
          rw [revealCore_mine fuel row col g hv hh hmine] at hres
          exfalso
          have hxne : ¬(x = row ∧ y = col) := by
            rintro ⟨rfl, rfl⟩
            rw [hmx] at hmine
            exact Bool.noConfusion hmine
          rw [show ({ markRevealed g row col with
              gameOver := true, victory := false, mineSeen := true } : Game).state x y =
            (markRevealed g row col).state x y from rfl, markRevealed_state, if_neg hxne] at hres
          rw [hhx] at hres
          exact absurd hres (by decide)
        · have hm : g.mines row col = false := by
            cases hq : g.mines row col with
            | false => rfl
            | true => exact absurd hq hmine
          rw [revealCore_safe fuel row col g hv hh hm] at hres ⊢
          set gmid := if g.numbers row col = 0
                      then revealAdjWith (revealCore fuel)
                             (neighborOffsets.map fun d => (row + d.1, col + d.2))
                             (markRevealed g row col)
                      else markRevealed g row col with hgmid
          have hsbmid : sameBoard g gmid := by
            rw [hgmid]
            by_cases h0 : g.numbers row col = 0
            · rw [if_pos h0]
              exact sameBoard_trans (markRevealed_sameBoard g row col)
                (revealAdjWith_mono (revealCore fuel)
                  (fun r c h => revealCore_mono fuel r c h) _ (markRevealed g row col)).1
            · rw [if_neg h0]
              exact markRevealed_sameBoard g row col
          -- the final victory wrapper can only reveal mines, so x's fate is decided in gmid
          have hxmid : gmid.state x y = CellState.Revealed := by
            by_cases hcv : check_victory gmid = true
            · rw [if_pos hcv] at hres
              have hs : (game_over_sequence true gmid).state x y =
                  if is_valid_position gmid x y = true ∧ gmid.mines x y = true
                  then CellState.Revealed else gmid.state x y := rfl
              rw [hs] at hres
              by_cases hcnd : is_valid_position gmid x y = true ∧ gmid.mines x y = true
              · exfalso
                have := hcnd.2
                rw [hsbmid.mines, hmx] at this
                exact Bool.noConfusion this
              · rw [if_neg hcnd] at hres
                exact hres
            · rw [if_neg hcv] at hres
              exact hres
          -- it now suffices to find the neighbor non-Hidden in gmid
          have hkeep : gmid.state (x + d.1) (y + d.2) ≠ CellState.Hidden →
              (if check_victory gmid = true then game_over_sequence true gmid else gmid).state
                (x + d.1) (y + d.2) ≠ CellState.Hidden := by
            intro hnb
            by_cases hcv : check_victory gmid = true
            · rw [if_pos hcv]
              exact nonHidden_mono (gos_stateMono true gmid) hnb
            · rw [if_neg hcv]
              exact hnb
          apply hkeep
          by_cases h0 : g.numbers row col = 0
          · -- a genuine cascade ran over the neighbors of (row, col)
            have hgmid0 : gmid = revealAdjWith (revealCore fuel)
                (neighborOffsets.map fun e => (row + e.1, col + e.2))
                (markRevealed g row col) := by
              rw [hgmid, if_pos h0]
            have hhid1 : hiddenCard (markRevealed g row col) < fuel := by
              have := hiddenCard_markRevealed hv hh
              omega
            have hadj := revealAdjWith_sat fuel ih
              (neighborOffsets.map fun e => (row + e.1, col + e.2))
              (markRevealed g row col) hhid1
            by_cases hxc : x = row ∧ y = col
            · -- x is the clicked cell: every neighbor was processed by the cascade
              obtain ⟨rfl, rfl⟩ := hxc
              have hmem : (x + d.1, y + d.2) ∈
                  neighborOffsets.map fun e => (x + e.1, y + e.2) :=
                List.mem_map_of_mem _ hd
              rw [hgmid0]
              exact hadj.2 (x + d.1, y + d.2) hmem hvd
            · -- x was revealed inside the cascade: saturation of the sub-run
              have hx1 : (markRevealed g row col).state x y = CellState.Hidden := by
                rw [markRevealed_state, if_neg hxc]
                exact hhx
              rw [hgmid0] at hxmid ⊢
              exact hadj.1 x y hvx hx1 hmx hnx hxmid d hd hvd
          · -- no cascade: x itself cannot have been revealed
            exfalso
            have hgmid1 : gmid = markRevealed g row col := by
              rw [hgmid, if_neg h0]
            rw [hgmid1, markRevealed_state] at hxmid
            by_cases hxc : x = row ∧ y = col
            · obtain ⟨rfl, rfl⟩ := hxc
              exact h0 hnx
            · rw [if_neg hxc] at hxmid
              rw [hhx] at hxmid
              exact absurd hxmid (by decide)
      · rw [revealCore_guard_fail _ _ _ _ hguard] at hres
        rw [hhx] at hres
        exact absurd hres (by decide)

/-! ## Cascade closure -/

theorem zreach_node {g : Game} {row col x y : Int} (h : ZReachH g row col x y)
    (hv : is_valid_position g row col = true) (hh : g.state row col = CellState.Hidden)
    (h0 : g.numbers row col = 0) (hm : g.mines row col = false) :
    is_valid_position g x y = true ∧ g.state x y = CellState.Hidden ∧
    g.numbers x y = 0 ∧ g.mines x y = false := by
  induction h with
  | base => exact ⟨hv, hh, h0, hm⟩
  | step _ _ _ _ _ hv' hh' hn' hm' _ => exact ⟨hv', hh', hn', hm'⟩

theorem hiddenCard_lt_fuelOf (g : Game) : hiddenCard g < fuelOf g := by
  have h1 : hiddenCard g ≤ (gridCells g).card := Finset.card_filter_le _ _
  have h2 : (gridCells g).card = g.height * g.width := by
    unfold gridCells
    rw [Finset.card_product, Finset.card_range, Finset.card_range]
  unfold fuelOf
  have : g.height * g.width = g.width * g.height := Nat.mul_comm _ _
  omega

theorem revealed_of_nonHidden {g g' : Game} (hmono : stateMono g g') {x y : Int}
    (hh : g.state x y = CellState.Hidden) (hnh : g'.state x y ≠ CellState.Hidden) :
    g'.state x y = CellState.Revealed := by
  by_cases he : g'.state x y = g.state x y
  · rw [he] at hnh
    exact absurd hh hnh
  · exact (hmono x y).2.1 he

theorem cascade_reaches {g : Game} {row col : Int} {fuel : Nat}
    (hfuel : hiddenCard g < fuel)
    (hv : is_valid_position g row col = true) (hh : g.state row col = CellState.Hidden)
    (hm : g.mines row col = false) (h0 : g.numbers row col = 0) :
    ∀ x y : Int, ZReachH g row col x y →
      (revealCore fuel row col g).state x y = CellState.Revealed := by
  intro x y hreach
  induction hreach with
  | base =>
      obtain ⟨k, rfl⟩ : ∃ k, fuel = k + 1 := ⟨fuel - 1, by omega⟩
      exact revealCore_reveals k row col g hv hh
  | @step x0 y0 x' y' hprev hhx hnx hmx hadj hv' hh' _ _ ihstep =>
      have hvx : is_valid_position g x0 y0 = true :=
        (zreach_node hprev hv hh h0 hm).1
      have hd : ((x' - x0, y' - y0) : Int × Int) ∈ neighborOffsets := hadj
      have hnb := revealCore_sat fuel row col g hfuel x0 y0 hvx hhx hmx hnx ihstep
        (x' - x0, y' - y0) hd
      have e1 : x0 + (x' - x0) = x' := by ring
      have e2 : y0 + (y' - y0) = y' := by ring
      rw [show ((x' - x0, y' - y0) : Int × Int).1 = x' - x0 from rfl,
          show ((x' - x0, y' - y0) : Int × Int).2 = y' - y0 from rfl, e1, e2] at hnb
      exact revealed_of_nonHidden (revealCore_mono fuel row col g).2 hh' (hnb hv')

theorem cascade_frontier {g : Game} {row col : Int} {fuel : Nat}
    (hfuel : hiddenCard g < fuel)
    (hv : is_valid_position g row col = true) (hh : g.state row col = CellState.Hidden)
    (hm : g.mines row col = false) (h0 : g.numbers row col = 0) :
    ∀ x y x' y' : Int, ZReachH g row col x y → adjacentTo x y x' y' →
      is_valid_position g x' y' = true → g.state x' y' = CellState.Hidden →
      (revealCore fuel row col g).state x' y' = CellState.Revealed := by
  intro x y x' y' hreach hadj hv' hh'
  obtain ⟨hvx, hhx, hnx, hmx⟩ := zreach_node hreach hv hh h0 hm
  have hxrev := cascade_reaches hfuel hv hh hm h0 x y hreach
  have hd : ((x' - x, y' - y) : Int × Int) ∈ neighborOffsets := hadj
  have hnb := revealCore_sat fuel row col g hfuel x y hvx hhx hmx hnx hxrev
    (x' - x, y' - y) hd
  have e1 : x + (x' - x) = x' := by ring
  have e2 : y + (y' - y) = y' := by ring
  rw [show ((x' - x, y' - y) : Int × Int).1 = x' - x from rfl,
      show ((x' - x, y' - y) : Int × Int).2 = y' - y from rfl, e1, e2] at hnb
  exact revealed_of_nonHidden (revealCore_mono fuel row col g).2 hh' (hnb hv')

theorem revNM_split {g g' : Game} (hsb : sameBoard g g') (hmono : stateMono g g') :
    revealedNonMineCard g' = revealedNonMineCard g +
      ((gridCells g).filter fun p =>
        g.state (p.1 : Int) (p.2 : Int) = CellState.Hidden ∧
        g'.state (p.1 : Int) (p.2 : Int) = CellState.Revealed ∧
        g.mines (p.1 : Int) (p.2 : Int) = false).card := by
  have hgrid : gridCells g' = gridCells g := gridCells_sameBoard hsb
  have hset : (gridCells g).filter (fun p =>
        g'.state (p.1 : Int) (p.2 : Int) = CellState.Revealed ∧
        g'.mines (p.1 : Int) (p.2 : Int) = false) =
      ((gridCells g).filter fun p =>
        g.state (p.1 : Int) (p.2 : Int) = CellState.Revealed ∧
        g.mines (p.1 : Int) (p.2 : Int) = false) ∪
      ((gridCells g).filter fun p =>
        g.state (p.1 : Int) (p.2 : Int) = CellState.Hidden ∧
        g'.state (p.1 : Int) (p.2 : Int) = CellState.Revealed ∧
        g.mines (p.1 : Int) (p.2 : Int) = false) := by
    ext p
    simp only [Finset.mem_filter, Finset.mem_union]
    constructor
    · rintro ⟨hp, hrev', hm'⟩
      have hmg : g.mines (p.1 : Int) (p.2 : Int) = false := by
        rw [← hsb.mines]
        exact hm'
      rcases hstate : g.state (p.1 : Int) (p.2 : Int) with _ | _ | _
      · exact Or.inr ⟨hp, rfl, hrev', hmg⟩
      · exact Or.inl ⟨hp, rfl, hmg⟩
      · rcases (hmono (p.1 : Int) (p.2 : Int)).2.2 hstate with hf | ⟨hmine, -⟩
        · rw [hf] at hrev'
          exact absurd hrev' (by decide)
        · rw [hmine] at hmg
          exact absurd hmg (by decide)
    · rintro (⟨hp, hrev, hmg⟩ | ⟨hp, _, hrev', hmg⟩)
      · exact ⟨hp, (hmono (p.1 : Int) (p.2 : Int)).1 hrev, by rw [hsb.mines]; exact hmg⟩
      · exact ⟨hp, hrev', by rw [hsb.mines]; exact hmg⟩
  have hdisj : Disjoint
      ((gridCells g).filter fun p =>
        g.state (p.1 : Int) (p.2 : Int) = CellState.Revealed ∧
        g.mines (p.1 : Int) (p.2 : Int) = false)
      ((gridCells g).filter fun p =>
        g.state (p.1 : Int) (p.2 : Int) = CellState.Hidden ∧
        g'.state (p.1 : Int) (p.2 : Int) = CellState.Revealed ∧
        g.mines (p.1 : Int) (p.2 : Int) = false) := by
    rw [Finset.disjoint_left]
    intro p hpA hpB
    rw [Finset.mem_filter] at hpA hpB
    have h1 := hpA.2.1
    have h2 := hpB.2.1
    rw [h1] at h2
    exact absurd h2 (by decide)
  show ((gridCells g').filter fun p =>
      g'.state (p.1 : Int) (p.2 : Int) = CellState.Revealed ∧
      g'.mines (p.1 : Int) (p.2 : Int) = false).card = _
  rw [hgrid, hset, Finset.card_union_of_disjoint hdisj]
  rfl

/-! ## Branch lemmas for `toggle_flag` and `reveal_cell` -/

theorem toggle_flag_reject {g : Game} {row col : Int}
    (h : ¬ (is_valid_position g row col = true) ∨ g.state row col = CellState.Revealed) :
    toggle_flag g row col = g := by
  unfold toggle_flag
  rw [if_pos h]

theorem toggle_flag_guard {g : Game} {row col : Int}
    (hv : is_valid_position g row col = true) (hnr : g.state row col ≠ CellState.Revealed) :
    ¬ (¬ (is_valid_position g row col = true) ∨ g.state row col = CellState.Revealed) := by
  rintro (h1 | h2)
  · exact h1 hv
  · exact hnr h2

theorem toggle_flag_unflag {g : Game} {row col : Int}
    (hv : is_valid_position g row col = true) (hf : g.state row col = CellState.Flagged) :
    toggle_flag g row col =
      { g with state := fun r c =>
                 if r = row ∧ c = col then CellState.Hidden else g.state r c,
               flagsPlaced := g.flagsPlaced - 1 } := by
  unfold toggle_flag
  rw [if_neg (toggle_flag_guard hv (by rw [hf]; decide)), if_pos hf]

theorem toggle_flag_place {g : Game} {row col : Int}
    (hv : is_valid_position g row col = true) (hh : g.state row col = CellState.Hidden)
    (hlt : g.flagsPlaced < (g.mineCount : Int)) :
    toggle_flag g row col =
      { g with state := fun r c =>
                 if r = row ∧ c = col then CellState.Flagged else g.state r c,
               flagsPlaced := g.flagsPlaced + 1 } := by
  unfold toggle_flag
  rw [if_neg (toggle_flag_guard hv (by rw [hh]; decide)),
      if_neg (by rw [hh]; decide), if_pos hlt]

theorem toggle_flag_ceiling {g : Game} {row col : Int}
    (hv : is_valid_position g row col = true) (hh : g.state row col = CellState.Hidden)
    (hge : ¬ g.flagsPlaced < (g.mineCount : Int)) :
    toggle_flag g row col = g := by
  unfold toggle_flag
  rw [if_neg (toggle_flag_guard hv (by rw [hh]; decide)),
      if_neg (by rw [hh]; decide), if_neg hge]

theorem reveal_cell_reject {g : Game} {row col : Int} (picks : List (Nat × Nat))
    (h : ¬ (is_valid_position g row col = true ∧ g.state row col = CellState.Hidden)) :
    reveal_cell g row col picks = some g := by
  unfold reveal_cell
  rw [if_pos h]

theorem reveal_cell_run {g : Game} {row col : Int} (picks : List (Nat × Nat))
    (hguard : is_valid_position g row col = true ∧ g.state row col = CellState.Hidden)
    (hfc : g.firstClick = false) :
    reveal_cell g row col picks = some (revealCore (fuelOf g) row col g) := by
  unfold reveal_cell
  rw [if_neg (not_not_intro hguard), hfc, if_neg (by decide)]

theorem reveal_cell_gen_none {g : Game} {row col : Int} {picks : List (Nat × Nat)}
    (hguard : is_valid_position g row col = true ∧ g.state row col = CellState.Hidden)
    (hfc : g.firstClick = true) (hgen : generate_mines g row col picks = none) :
    reveal_cell g row col picks = none := by
  unfold reveal_cell
  rw [if_neg (not_not_intro hguard), hfc, if_pos rfl, hgen]

theorem reveal_cell_gen_some {g g2 : Game} {row col : Int} {picks : List (Nat × Nat)}
    (hguard : is_valid_position g row col = true ∧ g.state row col = CellState.Hidden)
    (hfc : g.firstClick = true) (hgen : generate_mines g row col picks = some g2) :
    reveal_cell g row col picks =
      some (revealCore (fuelOf g2) row col { g2 with firstClick := false }) := by
  unfold reveal_cell
  rw [if_neg (not_not_intro hguard), hfc, if_pos rfl, hgen]

/-! ## Small helpers for the session invariant -/

theorem valid_eq_of_dims {g g' : Game} (hw : g'.width = g.width) (hh : g'.height = g.height)
    (r c : Int) : is_valid_position g' r c = is_valid_position g r c := by
  unfold is_valid_position
  rw [hw, hh]

theorem revNM_zero_of_noRevealed {g : Game}
    (h : ∀ p ∈ gridCells g, g.state (p.1 : Int) (p.2 : Int) ≠ CellState.Revealed) :
    revealedNonMineCard g = 0 := by
  unfold revealedNonMineCard
  rw [Finset.card_eq_zero, Finset.filter_eq_empty_iff]
  intro p hp
  rintro ⟨hrev, -⟩
  exact h p hp hrev

theorem revNM_state_update {g : Game} {row col : Int} {cs : CellState} {fp : Int}
    (hcs : cs ≠ CellState.Revealed) (hold : g.state row col ≠ CellState.Revealed) :
    revealedNonMineCard
      { g with state := fun r c => if r = row ∧ c = col then cs else g.state r c,
               flagsPlaced := fp } = revealedNonMineCard g := by
  show ((gridCells g).filter fun p =>
      (if (p.1 : Int) = row ∧ (p.2 : Int) = col then cs
       else g.state (p.1 : Int) (p.2 : Int)) = CellState.Revealed ∧
      g.mines (p.1 : Int) (p.2 : Int) = false).card = _
  apply filter_flip_congr
  intro q _
  by_cases hcond : (q.1 : Int) = row ∧ (q.2 : Int) = col
  · rw [if_pos hcond]
    obtain ⟨h1, h2⟩ := hcond
    rw [h1, h2]
    constructor
    · rintro ⟨h3, -⟩
      exact absurd h3 hold
    · rintro ⟨h3, -⟩
      exact absurd h3 hcs
  · rw [if_neg hcond]

/-! ## The session invariant -/

theorem reachInv_of_core {g : Game}
    (hw : 5 ≤ g.width ∧ g.width ≤ 30) (hhb : 5 ≤ g.height ∧ g.height ≤ 16)
    (hmcb : 1 ≤ g.mineCount ∧ g.mineCount ≤ g.width * g.height / 4)
    (hfl : g.flagsPlaced ≤ (g.mineCount : Int)) (hfc : g.firstClick = false)
    (hcore : CoreInv g) (hstrict : g.gameOver = false → g.revealedCount ≠ target g) :
    ReachInv g := by
  refine ⟨hw, hhb, hmcb, hfl, ?_, ?_, ?_, ?_, ?_, ?_, ?_, ?_, ?_⟩
  · intro h
    exact (false_of_true_of_false h hfc).elim
  · intro _
    exact hcore.mcard
  · intro _
    exact hcore.faithful
  · rw [hcore.notSeen]
    show g.revealedCount = (revealedNonMineCard g : Int) + 0
    rw [hcore.countEq]
    ring
  · exact hcore.countLe
  · intro hgo
    refine ⟨hcore.notSeen, ?_⟩
    have h1 := hcore.countLe
    have h2 := hstrict hgo
    omega
  · intro hgo hnv
    have := hcore.noLoss hgo
    exact (false_of_true_of_false this hnv).elim
  · intro _
    exact hcore.notSeen
  · intro hgo _
    exact hcore.vicDone hgo

theorem reachInv_setup {w h mc : Int} {g : Game} (hcfg : configure w h mc = some g) :
    ReachInv g := by
  unfold configure at hcfg
  split_ifs at hcfg with h1 h2 h3
  rw [Option.some.injEq] at hcfg
  subst hcfg
  push_neg at h1 h2 h3
  unfold MIN_WIDTH MAX_WIDTH at h1
  unfold MIN_HEIGHT MAX_HEIGHT at h2
  have hw5 : (5 : Int) ≤ w := h1.1
  have hw30 : w ≤ 30 := h1.2
  have hh5 : (5 : Int) ≤ h := h2.1
  have hh16 : h ≤ 16 := h2.2
  have hmc1 : (1 : Int) ≤ mc := h3.1
  have hmc4 : mc ≤ w * h / 4 := h3.2
  have hwn : (w.toNat : Int) = w := Int.toNat_of_nonneg (by omega)
  have hhn : (h.toNat : Int) = h := Int.toNat_of_nonneg (by omega)
  have hmn : (mc.toNat : Int) = mc := Int.toNat_of_nonneg (by omega)
  have hdiv : ((w.toNat * h.toNat / 4 : Nat) : Int) = w * h / 4 := by
    push_cast
    rw [hwn, hhn]
  have hmcb : mc.toNat ≤ w.toNat * h.toNat / 4 := by omega
  have hwhpos : 25 ≤ w.toNat * h.toNat := by
    calc (25 : Nat) = 5 * 5 := rfl
    _ ≤ w.toNat * h.toNat := Nat.mul_le_mul (by omega) (by omega)
  have htpos : (mc.toNat : Int) < (w.toNat * h.toNat : Nat) := by
    have hlt : w.toNat * h.toNat / 4 < w.toNat * h.toNat :=
      Nat.div_lt_self (by omega) (by omega)
    omega
  refine ⟨⟨?_, ?_⟩, ⟨?_, ?_⟩, ⟨?_, ?_⟩, ?_, ?_, ?_, ?_, ?_, ?_, ?_, ?_, ?_, ?_⟩
  · show 5 ≤ w.toNat
    omega
  · show w.toNat ≤ 30
    omega
  · show 5 ≤ h.toNat
    omega
  · show h.toNat ≤ 16
    omega
  · show 1 ≤ mc.toNat
    omega
  · show mc.toNat ≤ w.toNat * h.toNat / 4
    exact hmcb
  · show (0 : Int) ≤ (mc.toNat : Int)
    omega
  · intro _
    refine ⟨fun _ _ => rfl, rfl, rfl, rfl, rfl, ?_⟩
    intro p _ hr
    exact CellState.noConfusion (show CellState.Hidden = CellState.Revealed from hr)
  · intro hfc
    exact (false_of_true_of_false rfl hfc).elim
  · intro hfc
    exact (false_of_true_of_false rfl hfc).elim
  · show (0 : Int) = (revealedNonMineCard (setup_board w h mc) : Int) + 0
    rw [revNM_zero_of_noRevealed (fun p _ hr =>
      CellState.noConfusion (show CellState.Hidden = CellState.Revealed from hr))]
    ring
  · show (0 : Int) ≤ target (setup_board w h mc)
    unfold target setup_board
    push_cast
    omega
  · intro _
    refine ⟨rfl, ?_⟩
    show (0 : Int) < target (setup_board w h mc)
    unfold target setup_board
    push_cast
    omega
  · intro hgo
    exact (false_of_true_of_false hgo rfl).elim
  · intro hv
    exact (false_of_true_of_false hv rfl).elim
  · intro hgo
    exact (false_of_true_of_false hgo rfl).elim

theorem reachInv_toggle_update {g : Game} (ihv : ReachInv g) (hgo : g.gameOver = false)
    {row col : Int} {cs : CellState} {fp : Int}
    (hcs : cs ≠ CellState.Revealed) (hold : g.state row col ≠ CellState.Revealed)
    (hfl : fp ≤ (g.mineCount : Int)) :
    ReachInv { g with state := fun r c =>
                        if r = row ∧ c = col then cs else g.state r c,
                      flagsPlaced := fp } := by
  refine ⟨ihv.wbounds, ihv.hbounds, ihv.mcBounds, hfl, ?_, ?_, ?_, ?_, ?_, ?_, ?_, ?_, ?_⟩
  · intro hfc
    obtain ⟨hm0, hc0, hgo0, hvic0, hms0, hnr0⟩ := ihv.preMines hfc
    refine ⟨hm0, hc0, hgo0, hvic0, hms0, ?_⟩
    intro p hp
    show ¬ (if (p.1 : Int) = row ∧ (p.2 : Int) = col then cs
            else g.state (p.1 : Int) (p.2 : Int)) = CellState.Revealed
    by_cases hcond : (p.1 : Int) = row ∧ (p.2 : Int) = col
    · rw [if_pos hcond]
      exact hcs
    · rw [if_neg hcond]
      exact hnr0 p hp
  · intro h
    exact ihv.postMcard h
  · intro h
    exact ihv.postFaithful h
  · show g.revealedCount = _ + _
    rw [revNM_state_update hcs hold]
    exact ihv.countEq
  · exact ihv.countLe
  · intro h
    exact ihv.progress h
  · intro h hvic
    exact ihv.lossSeen h hvic
  · intro h
    exact ihv.vicSeen h
  · intro hgo' _
    exact (false_of_true_of_false (show g.gameOver = true from hgo') hgo).elim

theorem reachInv_flag {g : Game} (ihv : ReachInv g) (hgo : g.gameOver = false)
    (row col : Int) : ReachInv (toggle_flag g row col) := by
  by_cases hval : is_valid_position g row col = true
  · by_cases hrev : g.state row col = CellState.Revealed
    · rw [toggle_flag_reject (Or.inr hrev)]
      exact ihv
    · by_cases hf : g.state row col = CellState.Flagged
      · rw [toggle_flag_unflag hval hf]
        exact @reachInv_toggle_update g ihv hgo row col CellState.Hidden
          (g.flagsPlaced - 1) (by decide) hrev
          (by have := ihv.flagsLe; omega)
      · have hh : g.state row col = CellState.Hidden := by
          cases hst : g.state row col with
          | Hidden => rfl
          | Revealed => exact absurd hst hrev
          | Flagged => exact absurd hst hf
        by_cases hlt : g.flagsPlaced < (g.mineCount : Int)
        · rw [toggle_flag_place hval hh hlt]
          exact @reachInv_toggle_update g ihv hgo row col CellState.Flagged
            (g.flagsPlaced + 1) (by decide) hrev (by omega)
        · rw [toggle_flag_ceiling hval hh hlt]
          exact ihv
  · rw [toggle_flag_reject (Or.inl hval)]
    exact ihv

theorem reachInv_reveal {g : Game} (ihv : ReachInv g) (hgo : g.gameOver = false)
    (row col : Int) (picks : List (Nat × Nat)) :
    ReachInv ((reveal_cell g row col picks).getD g) := by
  by_cases hguard : is_valid_position g row col = true ∧ g.state row col = CellState.Hidden
  · obtain ⟨hv, hh⟩ := hguard
    cases hfc : g.firstClick with
    | true =>
        cases hgen : generate_mines g row col picks with
        | none =>
            rw [reveal_cell_gen_none ⟨hv, hh⟩ hfc hgen]
            exact ihv
        | some g2 =>
            rw [reveal_cell_gen_some ⟨hv, hh⟩ hfc hgen]
            obtain ⟨hpre0, hcnt0, hgo0, hvic0, hms0, hnorev⟩ := ihv.preMines hfc
            have hspec := generate_spec hpre0
              (by have := ihv.hbounds.1; omega) (by have := ihv.wbounds.1; omega) hgen
            obtain ⟨hmc2, hexcl2, hw2, hh2, hmcount2, hstate2, hcount2, hflags2,
              hgover2, hvic2, hms2, hfc2, hfaith2⟩ := hspec
            have hcore2 : CoreInv { g2 with firstClick := false } := by
              refine ⟨?_, ?_, ?_, ?_, ?_, ?_, ?_⟩
              · show minesCard g2 = g2.mineCount
                rw [hmc2, hmcount2]
              · exact hfaith2
              · show g2.mineSeen = false
                rw [hms2]
                exact hms0
              · show g2.revealedCount =
                  ((revealedNonMineCard { g2 with firstClick := false } : Nat) : Int)
                have hz : revealedNonMineCard { g2 with firstClick := false } = 0 := by
                  apply revNM_zero_of_noRevealed
                  intro p hp
                  show ¬ g2.state (p.1 : Int) (p.2 : Int) = CellState.Revealed
                  rw [hstate2]
                  apply hnorev
                  have hp2 : p.1 < g2.height ∧ p.2 < g2.width := (mem_gridCells _ p).mp hp
                  rw [mem_gridCells]
                  omega
                rw [hz, hcount2, hcnt0]
                rfl
              · show g2.revealedCount ≤ target { g2 with firstClick := false }
                have htg : target { g2 with firstClick := false } = target g := by
                  show ((g2.width * g2.height : Nat) : Int) - (g2.mineCount : Int) = target g
                  rw [hw2, hh2, hmcount2]
                  unfold target
                  push_cast
                  ring
                rw [htg, hcount2]
                exact ihv.countLe
              · intro hgo2
                rw [show ({ g2 with firstClick := false } : Game).gameOver = g.gameOver
                  from hgover2] at hgo2
                exact (false_of_true_of_false hgo2 hgo).elim
              · intro hgo2
                rw [show ({ g2 with firstClick := false } : Game).gameOver = g.gameOver
                  from hgover2] at hgo2
                exact (false_of_true_of_false hgo2 hgo).elim
            have hv2 : is_valid_position { g2 with firstClick := false } row col = true := by
              rw [valid_eq_of_dims (show ({ g2 with firstClick := false } : Game).width = g.width
                from hw2) (show ({ g2 with firstClick := false } : Game).height = g.height
                from hh2)]
              exact hv
            have hh2' : ({ g2 with firstClick := false } : Game).state row col =
                CellState.Hidden := by
              show g2.state row col = CellState.Hidden
              rw [hstate2]
              exact hh
            have hm2 : ({ g2 with firstClick := false } : Game).mines row col = false := hexcl2
            have hcnt := revealCore_cnt (fuelOf g2) row col { g2 with firstClick := false }
              hcore2 hm2
            have hsbr : sameBoard { g2 with firstClick := false }
                (revealCore (fuelOf g2) row col { g2 with firstClick := false }) :=
              (revealCore_mono (fuelOf g2) row col _).1
            show ReachInv (revealCore (fuelOf g2) row col { g2 with firstClick := false })
            apply reachInv_of_core
            · constructor
              · rw [hsbr.width, show ({ g2 with firstClick := false } : Game).width = g.width
                  from hw2]
                exact ihv.wbounds.1
              · rw [hsbr.width, show ({ g2 with firstClick := false } : Game).width = g.width
                  from hw2]
                exact ihv.wbounds.2
            · constructor
              · rw [hsbr.height, show ({ g2 with firstClick := false } : Game).height = g.height
                  from hh2]
                exact ihv.hbounds.1
              · rw [hsbr.height, show ({ g2 with firstClick := false } : Game).height = g.height
                  from hh2]
                exact ihv.hbounds.2
            · rw [hsbr.mineCount, hsbr.width, hsbr.height]
              constructor
              · rw [show ({ g2 with firstClick := false } : Game).mineCount = g.mineCount
                  from hmcount2]
                exact ihv.mcBounds.1
              · rw [show ({ g2 with firstClick := false } : Game).mineCount = g.mineCount
                  from hmcount2,
                  show ({ g2 with firstClick := false } : Game).width = g.width from hw2,
                  show ({ g2 with firstClick := false } : Game).height = g.height from hh2]
                exact ihv.mcBounds.2
            · rw [hsbr.flagsPlaced, hsbr.mineCount]
              rw [show ({ g2 with firstClick := false } : Game).flagsPlaced = g.flagsPlaced
                from hflags2,
                show ({ g2 with firstClick := false } : Game).mineCount = g.mineCount
                from hmcount2]
              exact ihv.flagsLe
            · rw [hsbr.firstClick]
            · exact hcnt.1
            · intro hgof
              have hstrict := revealCore_strict (g2.width * g2.height) row col
                { g2 with firstClick := false } hv2 hh2' hm2 hgof
              rw [target_sameBoard hsbr]
              exact hstrict
    | false =>
        rw [reveal_cell_run picks ⟨hv, hh⟩ hfc]
        have hms : g.mineSeen = false := (ihv.progress hgo).1
        have hcore : CoreInv g := by
          refine ⟨ihv.postMcard hfc, ihv.postFaithful hfc, hms, ?_, ihv.countLe, ?_, ?_⟩
          · have := ihv.countEq
            rw [hms] at this
            simpa using this
          · intro h2
            exact (false_of_true_of_false h2 hgo).elim
          · intro h2
            exact (false_of_true_of_false h2 hgo).elim
        by_cases hmine : g.mines row col = true
        · show ReachInv (revealCore (fuelOf g) row col g)
          rw [show revealCore (fuelOf g) row col g =
              { markRevealed g row col with
                  gameOver := true, victory := false, mineSeen := true }
            from revealCore_mine (g.width * g.height) row col g hv hh hmine]
          have hstrict := (ihv.progress hgo).2
          refine ⟨ihv.wbounds, ihv.hbounds, ihv.mcBounds, ihv.flagsLe, ?_, ?_, ?_, ?_, ?_,
            ?_, ?_, ?_, ?_⟩
          · intro hfc2
            exact (false_of_true_of_false (show g.firstClick = true from hfc2) hfc).elim
          · intro _
            show minesCard g = g.mineCount
            exact hcore.mcard
          · intro _
            show numbersFaithful { markRevealed g row col with
                gameOver := true, victory := false, mineSeen := true } 
            exact numbersFaithful_sameBoard
              ⟨rfl, rfl, rfl, rfl, rfl, rfl, rfl⟩ hcore.faithful
          · show g.revealedCount + 1 = _ + _
            rw [show revealedNonMineCard { markRevealed g row col with
                  gameOver := true, victory := false, mineSeen := true } =
                revealedNonMineCard (markRevealed g row col) from rfl,
              revNM_markRevealed_mine hmine]
            rw [hcore.countEq]
            simp
          · show g.revealedCount + 1 ≤ target g
            omega
          · intro h2
            exact (false_of_true_of_false rfl (show (true : Bool) = false from h2)).elim
          · intro _ _
            rfl
          · intro hvic
            exact (false_of_true_of_false hvic rfl).elim
          · intro _ hvic
            exact (false_of_true_of_false hvic rfl).elim
        · have hm : g.mines row col = false := by
            cases hq : g.mines row col with
            | false => rfl
            | true => exact absurd hq hmine
          have hcnt := revealCore_cnt (fuelOf g) row col g hcore hm
          have hsbr : sameBoard g (revealCore (fuelOf g) row col g) :=
            (revealCore_mono (fuelOf g) row col g).1
          show ReachInv (revealCore (fuelOf g) row col g)
          apply reachInv_of_core
          · rw [hsbr.width]
            exact ihv.wbounds
          · rw [hsbr.height]
            exact ihv.hbounds
          · rw [hsbr.mineCount, hsbr.width, hsbr.height]
            exact ihv.mcBounds
          · rw [hsbr.flagsPlaced, hsbr.mineCount]
            exact ihv.flagsLe
          · rw [hsbr.firstClick]
            exact hfc
          · exact hcnt.1
          · intro hgof
            have hstrict := revealCore_strict (g.width * g.height) row col g hv hh hm hgof
            rw [target_sameBoard hsbr]
            exact hstrict
  · rw [reveal_cell_reject picks hguard]
    exact ihv

theorem reachInv_holds : ∀ g : Game, Reachable g → ReachInv g := by
  intro g hreach
  induction hreach with
  | setup w h mc g hcfg => exact reachInv_setup hcfg
  | reveal g row col picks _ hgo ihv => exact reachInv_reveal ihv hgo row col picks
  | flag g row col _ hgo ihv => exact reachInv_flag ihv hgo row col

theorem reveal_flagsKept {g : Game} (ihv : ReachInv g) (hgo : g.gameOver = false)
    (row col : Int) (picks : List (Nat × Nat)) {g' : Game}
    (hres : reveal_cell g row col picks = some g') :
    ∀ x y : Int, g.state x y = CellState.Flagged →
      g'.state x y = CellState.Flagged ∨
      (g'.mines x y = true ∧ g'.state x y = CellState.Revealed ∧
       g'.gameOver = true ∧ g'.victory = true) := by
  by_cases hguard : is_valid_position g row col = true ∧ g.state row col = CellState.Hidden
  · obtain ⟨hv, hh⟩ := hguard
    cases hfc : g.firstClick with
    | true =>
        cases hgen : generate_mines g row col picks with
        | none =>
            rw [reveal_cell_gen_none ⟨hv, hh⟩ hfc hgen] at hres
            exact Option.noConfusion hres
        | some g2 =>
            rw [reveal_cell_gen_some ⟨hv, hh⟩ hfc hgen] at hres
            rw [Option.some.injEq] at hres
            subst hres
            obtain ⟨hpre0, hcnt0, hgo0, hvic0, hms0, hnorev⟩ := ihv.preMines hfc
            have hspec := generate_spec hpre0
              (by have := ihv.hbounds.1; omega) (by have := ihv.wbounds.1; omega) hgen
            obtain ⟨hmc2, hexcl2, hw2, hh2, hmcount2, hstate2, hcount2, hflags2,
              hgover2, hvic2, hms2, hfc2, hfaith2⟩ := hspec
            have hcore2 : CoreInv { g2 with firstClick := false } := by
              refine ⟨?_, ?_, ?_, ?_, ?_, ?_, ?_⟩
              · show minesCard g2 = g2.mineCount
                rw [hmc2, hmcount2]
              · exact hfaith2
              · show g2.mineSeen = false
                rw [hms2]
                exact hms0
              · show g2.revealedCount =
                  ((revealedNonMineCard { g2 with firstClick := false } : Nat) : Int)
                have hz : revealedNonMineCard { g2 with firstClick := false } = 0 := by
                  apply revNM_zero_of_noRevealed
                  intro p hp
                  show ¬ g2.state (p.1 : Int) (p.2 : Int) = CellState.Revealed
                  rw [hstate2]
                  apply hnorev
                  have hp2 : p.1 < g2.height ∧ p.2 < g2.width := (mem_gridCells _ p).mp hp
                  rw [mem_gridCells]
                  omega
                rw [hz, hcount2, hcnt0]
                rfl
              · show g2.revealedCount ≤ target { g2 with firstClick := false }
                have htg : target { g2 with firstClick := false } = target g := by
                  show ((g2.width * g2.height : Nat) : Int) - (g2.mineCount : Int) = target g
                  rw [hw2, hh2, hmcount2]
                  unfold target
                  push_cast
                  ring
                rw [htg, hcount2]
                exact ihv.countLe
              · intro hgo2
                rw [show ({ g2 with firstClick := false } : Game).gameOver = g.gameOver
                  from hgover2] at hgo2
                exact (false_of_true_of_false hgo2 hgo).elim
              · intro hgo2
                rw [show ({ g2 with firstClick := false } : Game).gameOver = g.gameOver
                  from hgover2] at hgo2
                exact (false_of_true_of_false hgo2 hgo).elim
            have hm2 : ({ g2 with firstClick := false } : Game).mines row col = false := hexcl2
            have hkept := (revealCore_cnt (fuelOf g2) row col
              { g2 with firstClick := false } hcore2 hm2).2.2
            intro x y hf
            have hf2 : ({ g2 with firstClick := false } : Game).state x y =
                CellState.Flagged := by
              show g2.state x y = CellState.Flagged
              rw [hstate2]
              exact hf
            have hsbr : sameBoard { g2 with firstClick := false }
                (revealCore (fuelOf g2) row col { g2 with firstClick := false }) :=
              (revealCore_mono (fuelOf g2) row col _).1
            rcases hkept x y hf2 with hstay | ⟨hmine, hrev, hgover, hvic⟩
            · exact Or.inl hstay
            · refine Or.inr ⟨?_, hrev, hgover, hvic⟩
              rw [hsbr.mines]
              exact hmine
    | false =>
        rw [reveal_cell_run picks ⟨hv, hh⟩ hfc] at hres
        rw [Option.some.injEq] at hres
        subst hres
        have hms : g.mineSeen = false := (ihv.progress hgo).1
        have hcore : CoreInv g := by
          refine ⟨ihv.postMcard hfc, ihv.postFaithful hfc, hms, ?_, ihv.countLe, ?_, ?_⟩
          · have := ihv.countEq
            rw [hms] at this
            simpa using this
          · intro h2
            exact (false_of_true_of_false h2 hgo).elim
          · intro h2
            exact (false_of_true_of_false h2 hgo).elim
        by_cases hmine : g.mines row col = true
        · rw [show revealCore (fuelOf g) row col g =
              { markRevealed g row col with
                  gameOver := true, victory := false, mineSeen := true }
            from revealCore_mine (g.width * g.height) row col g hv hh hmine]
          intro x y hf
          left
          show (markRevealed g row col).state x y = CellState.Flagged
          have hcond : ¬(x = row ∧ y = col) := by
            rintro ⟨rfl, rfl⟩
            rw [hh] at hf
            exact absurd hf (by decide)
          rw [markRevealed_state, if_neg hcond]
          exact hf
        · have hm : g.mines row col = false := by
            cases hq : g.mines row col with
            | false => rfl
            | true => exact absurd hq hmine
          have hkept := (revealCore_cnt (fuelOf g) row col g hcore hm).2.2
          intro x y hf
          have hsbr : sameBoard g (revealCore (fuelOf g) row col g) :=
            (revealCore_mono (fuelOf g) row col g).1
          rcases hkept x y hf with hstay | ⟨hmine2, hrev, hgover, hvic⟩
          · exact Or.inl hstay
          · refine Or.inr ⟨?_, hrev, hgover, hvic⟩
            rw [hsbr.mines]
            exact hmine2
  · rw [reveal_cell_reject picks hguard] at hres
    rw [Option.some.injEq] at hres
    subst hres
    intro x y hf
    exact Or.inl hf

/-! ## Concrete reachable states for the witnesses -/

theorem lossSetup_reachable : Reachable lossSetup :=
  Reachable.setup 5 5 2 lossSetup rfl

theorem lossMid_reachable : Reachable lossMid :=
  Reachable.reveal lossSetup 1 0 [(0, 0), (0, 2)] lossSetup_reachable rfl

theorem lossEnd_reachable : Reachable lossEnd :=
  Reachable.reveal lossMid 0 2 [] lossMid_reachable (by decide)

theorem flagSetup_reachable : Reachable flagSetup :=
  Reachable.setup 5 5 1 flagSetup rfl

theorem flagOne_reachable : Reachable flagOne :=
  Reachable.flag flagSetup 0 0 flagSetup_reachable rfl

/-! ## The claims -/

/-- C1: Safe first click.  Whenever `generate_mines` finishes placing mines on
a mine-free board with positive dimensions (the reject-and-resample loop, fed
by an arbitrary pick stream, is deterministic given that stream), the board
ends up with exactly `mineCount` in-bounds mine cells — mines are distinct by
construction, the loop skips cells that already hold one — and the excluded
first-click cell `(startRow, startCol)` never holds a mine. -/
theorem C1_safe_first_click {g g' : Game} {startRow startCol : Int}
    {picks : List (Nat × Nat)}
    (hzero : ∀ r c, g.mines r c = false) (hh : 0 < g.height) (hw : 0 < g.width)
    (hgen : generate_mines g startRow startCol picks = some g') :
    minesCard g' = g.mineCount ∧ g'.mines startRow startCol = false := by
  have h := generate_spec hzero hh hw hgen
  exact ⟨h.1, h.2.1⟩

/-- Witness for C1: on a fresh 5×5 board with one mine, first click at (4,4)
and pick stream [(0,0)], generation succeeds, places exactly one mine, and
leaves (4,4) mine-free. -/
theorem C1_safe_first_click_witness :
    minesCard genDemo = 1 ∧ genDemo.mines 4 4 = false := by
  have h := @C1_safe_first_click (setup_board 5 5 1) genDemo 4 4 [(0, 0)]
    (fun _ _ => rfl) (by decide) (by decide) rfl
  exact ⟨h.1, h.2⟩

/-- C2: Win criterion.  In every reachable session state, the status is Won
(`game_over && victory` in the C struct) iff `revealedCount` equals
`width*height - mineCount` and no mine was ever revealed while the game was
in progress (the `mineSeen` history flag); and on victory every in-bounds
mine cell is cosmetically `Revealed` while `revealedCount` still equals
`width*height - mineCount` (the cosmetic pass does not alter it). -/
theorem C2_win_criterion :
    ∀ g : Game, Reachable g →
      (statusWon g = true ↔ g.revealedCount = target g ∧ g.mineSeen = false) ∧
      (statusWon g = true →
        (∀ p ∈ gridCells g, g.mines (p.1 : Int) (p.2 : Int) = true →
          g.state (p.1 : Int) (p.2 : Int) = CellState.Revealed) ∧
        g.revealedCount = target g) := by
  intro g h
  have hinv := reachInv_holds g h
  have hwn : statusWon g = true ↔ g.gameOver = true ∧ g.victory = true := by
    unfold statusWon
    rw [Bool.and_eq_true]
  constructor
  · constructor
    · intro hw
      obtain ⟨hgo, hvic⟩ := hwn.mp hw
      exact ⟨(hinv.vicDone hgo hvic).2, hinv.vicSeen hvic⟩
    · rintro ⟨hcount, hms⟩
      cases hgo : g.gameOver with
      | false =>
          have := (hinv.progress hgo).2
          omega
      | true =>
          cases hvic : g.victory with
          | false =>
              have := hinv.lossSeen hgo hvic
              exact (false_of_true_of_false this hms).elim
          | true => exact hwn.mpr ⟨hgo, hvic⟩
  · intro hw
    obtain ⟨hgo, hvic⟩ := hwn.mp hw
    exact ⟨fun p hp _ => (hinv.vicDone hgo hvic).1 p hp, (hinv.vicDone hgo hvic).2⟩

/-- Witness for C2: at the concrete lost session `lossEnd` (a mine was revealed
while in progress), the criterion correctly classifies the state as not Won. -/
theorem C2_win_criterion_witness :
    statusWon lossEnd = false ∧ lossEnd.mineSeen = true := by
  have h := (C2_win_criterion lossEnd lossEnd_reachable).1
  constructor
  · cases hs : statusWon lossEnd with
    | false => rfl
    | true =>
        have hms := (h.mp hs).2
        exact (false_of_true_of_false (by decide) hms).elim
  · decide

/-- C3: Loss behaviour — the code contradicts the claim.  In the concrete
session `lossEnd` (5×5 board, mines at (0,0) and (0,2); reveal (1,0), then
reveal the mine (0,2)) the game is over and lost, yet the other mine (0,0)
is still Hidden: `reveal_cell` sets `game_over` on a mine hit and returns
without ever calling `game_over_sequence(false)`, so the "reveal all mines"
loop of the source (minesweeper.c lines 433-440) is dead on the loss path. -/
theorem C3_loss_mines_stay_hidden :
    lossEnd.gameOver = true ∧ lossEnd.victory = false ∧
    lossEnd.mines 0 0 = true ∧ lossEnd.state 0 0 = CellState.Hidden ∧
    lossEnd.mines 0 2 = true ∧ lossEnd.state 0 2 = CellState.Revealed := by
  refine ⟨by decide, by decide, by decide, by decide, by decide, by decide⟩

/-- C4 counterexample: the claim's closure is false for chains "of
zero-adjacency neighbors" with no state condition (`ZReachAny`).  On
`blockedBoard` the clicked corner `(4,4)` has zero adjacent mines and the
zero-adjacency neighbor `(3,4)` is reachable in one chain step, yet after
the reveal it is still Flagged, not Revealed: `reveal_adjacent_cells`
recurses only into Hidden cells, so a flagged cell inside the region is
skipped. -/
theorem C4_cascade_counterexample :
    blockedBoard.numbers 4 4 = 0 ∧
    ZReachAny blockedBoard 4 4 3 4 ∧
    blockedPost.state 4 4 = CellState.Revealed ∧
    blockedPost.state 3 4 = CellState.Flagged := by
  refine ⟨by decide, ?_, by decide, by decide⟩
  exact ZReachAny.step ZReachAny.base (by decide) (by decide) (by decide)
    (by decide) (by decide) (by decide)

/-- C4 (amended): Cascade closure over Hidden chains.  If the clicked cell
is in bounds, Hidden, mine-free with zero adjacent mines, and the fuel
exceeds the number of Hidden cells (as `reveal_cell`'s `fuelOf` budget
always does), then every cell reachable from it through a chain of Hidden
zero-adjacency non-mine cells is Revealed; every in-bounds Hidden neighbor
of such a chain cell (the numbered frontier) is Revealed as well; and
`revealedCount` grows by exactly the cardinality of the set of
newly-revealed cells — each cell is counted once, none twice. -/
theorem C4_cascade_closure {g : Game} {row col : Int} {fuel : Nat}
    (hinv : CoreInv g) (hfuel : hiddenCard g < fuel)
    (hv : is_valid_position g row col = true) (hh : g.state row col = CellState.Hidden)
    (hm : g.mines row col = false) (h0 : g.numbers row col = 0) :
    (∀ x y : Int, ZReachH g row col x y →
      (revealCore fuel row col g).state x y = CellState.Revealed) ∧
    (∀ x y x' y' : Int, ZReachH g row col x y → adjacentTo x y x' y' →
      is_valid_position g x' y' = true → g.state x' y' = CellState.Hidden →
      (revealCore fuel row col g).state x' y' = CellState.Revealed) ∧
    (revealCore fuel row col g).revealedCount = g.revealedCount +
      (((gridCells g).filter fun p =>
        g.state (p.1 : Int) (p.2 : Int) = CellState.Hidden ∧
        (revealCore fuel row col g).state (p.1 : Int) (p.2 : Int) = CellState.Revealed ∧
        g.mines (p.1 : Int) (p.2 : Int) = false).card : Int) := by
  have hmono := revealCore_mono fuel row col g
  have hcnt := revealCore_cnt fuel row col g hinv hm
  refine ⟨cascade_reaches hfuel hv hh hm h0, cascade_frontier hfuel hv hh hm h0, ?_⟩
  have hsplit := revNM_split hmono.1 hmono.2
  rw [hcnt.1.countEq, hsplit, hinv.countEq]
  push_cast
  ring

/-- Witness for C4's amended closure: on `corneredBoard` (all three
neighbors of the zero corner `(4,4)` flagged) the cascade reveals the
clicked cell itself and the count grows by exactly one. -/
theorem C4_cascade_closure_witness :
    (revealCore 26 4 4 corneredBoard).state 4 4 = CellState.Revealed ∧
    (revealCore 26 4 4 corneredBoard).revealedCount = 1 := by
  have h := @C4_cascade_closure corneredBoard 4 4 26
    ⟨by decide, by unfold numbersFaithful; decide, by decide, by decide, by decide,
     by decide, fun hgo => absurd hgo (by decide)⟩
    (by decide) (by decide) (by decide) (by decide) (by decide)
  refine ⟨h.1 4 4 ZReachH.base, ?_⟩
  rw [h.2.2]
  decide

/-- C5: Flag ceiling.  `toggle_flag` on an in-bounds Hidden cell flags it
and increments `flagsPlaced` exactly when `flagsPlaced < mineCount`
(branch `FlagOutcome.Flagged`), and otherwise takes the
`RejectedMaxFlagsReached` branch and returns the state unchanged;
consequently `flagsPlaced ≤ mineCount` in every reachable session state. -/
theorem C5_flag_ceiling :
    (∀ (g : Game) (row col : Int),
      is_valid_position g row col = true → g.state row col = CellState.Hidden →
        (g.flagsPlaced < (g.mineCount : Int) →
          flag_outcome g row col = FlagOutcome.Flagged ∧
          (toggle_flag g row col).state row col = CellState.Flagged ∧
          (toggle_flag g row col).flagsPlaced = g.flagsPlaced + 1) ∧
        (¬ g.flagsPlaced < (g.mineCount : Int) →
          flag_outcome g row col = FlagOutcome.RejectedMaxFlagsReached ∧
          toggle_flag g row col = g)) ∧
    (∀ g : Game, Reachable g → g.flagsPlaced ≤ (g.mineCount : Int)) := by
  constructor
  · intro g row col hv hh
    constructor
    · intro hlt
      refine ⟨?_, ?_, ?_⟩
      · unfold flag_outcome
        rw [if_neg (not_not_intro hv), if_neg (by rw [hh]; decide),
            if_neg (by rw [hh]; decide), if_pos hlt]
      · rw [toggle_flag_place hv hh hlt]
        simp
      · rw [toggle_flag_place hv hh hlt]
    · intro hge
      constructor
      · unfold flag_outcome
        rw [if_neg (not_not_intro hv), if_neg (by rw [hh]; decide),
            if_neg (by rw [hh]; decide), if_neg hge]
      · exact toggle_flag_ceiling hv hh hge
  · intro g hreach
    exact (reachInv_holds g hreach).flagsLe

/-- Witness for C5: on `flagOne` (one flag already placed, `mineCount = 1`)
a further toggle at `(1,1)` hits the ceiling and is the identity, and the
reachable bound holds there. -/
theorem C5_flag_ceiling_witness :
    toggle_flag flagOne 1 1 = flagOne ∧
    flagOne.flagsPlaced ≤ (flagOne.mineCount : Int) := by
  refine ⟨((C5_flag_ceiling.1 flagOne 1 1 (by decide) (by decide)).2 (by decide)).2,
          C5_flag_ceiling.2 flagOne flagOne_reachable⟩

/-- C6 counterexample: the claim (and spec §4.1) says height up to 30 is
accepted, but the source checks `custom_height > MAX_HEIGHT` with
`MAX_HEIGHT = 16` (minesweeper.c line 593 with minesweeper.c line 10), so
`width 30, height 30, mines 10` satisfies the claimed acceptance predicate
yet `configure` rejects it and produces no board. -/
theorem C6_configure_counterexample :
    configure_ok_spec 30 30 10 ∧ configure 30 30 10 = none := by
  exact ⟨by decide, rfl⟩

/-- C6 (amended): `configure` accepts exactly when `5 ≤ width ≤ 30`,
`5 ≤ height ≤ 16` and `1 ≤ mineCount ≤ width*height/4`, and on any
violation it produces no board (`none`, no crash); on success the board
is the fully initialized `setup_board`. -/
theorem C6_configure_validation (w h mc : Int) :
    ((configure w h mc).isSome = true ↔
      5 ≤ w ∧ w ≤ 30 ∧ 5 ≤ h ∧ h ≤ 16 ∧ 1 ≤ mc ∧ mc ≤ (w * h) / 4) ∧
    (∀ g : Game, configure w h mc = some g → g = setup_board w h mc) := by
  unfold configure MIN_WIDTH MAX_WIDTH MIN_HEIGHT MAX_HEIGHT
  constructor
  · generalize w * h = A
    split_ifs with h1 h2 h3
    · simp only [Option.isSome_none, Bool.false_eq_true, false_iff]
      intro hc
      omega
    · simp only [Option.isSome_none, Bool.false_eq_true, false_iff]
      intro hc
      omega
    · simp only [Option.isSome_none, Bool.false_eq_true, false_iff]
      intro hc
      omega
    · simp only [Option.isSome_some, true_iff]
      omega
  · intro g hg
    split_ifs at hg
    exact (Option.some.inj hg).symm

/-- Witness for C6: concrete accepted configuration `9×9` with `10` mines
evaluates to an initialized board. -/
theorem C6_configure_validation_witness :
    configure 9 9 10 = some (setup_board 9 9 10) := by
  have h1 := (C6_configure_validation 9 9 10).1.mpr (by decide)
  have h2 := (C6_configure_validation 9 9 10).2
  cases hc : configure 9 9 10 with
  | none => rw [hc] at h1; exact absurd h1 (by decide)
  | some g => rw [h2 g hc]

/-- C7: Revealed-count invariant.  In every reachable session state —
i.e. after the validated configuration and any sequence of reveals
(cascades and losing mine reveals included) and flag toggles —
`0 ≤ revealedCount ≤ width*height - mineCount`. -/
theorem C7_revealed_count_bounds :
    ∀ g : Game, Reachable g → 0 ≤ g.revealedCount ∧ g.revealedCount ≤ target g := by
  intro g h
  have hinv := reachInv_holds g h
  refine ⟨?_, hinv.countLe⟩
  have h0 : (0 : Int) ≤ (revealedNonMineCard g : Int) := Int.natCast_nonneg _
  rw [hinv.countEq]
  split_ifs <;> omega

/-- Witness for C7: the bounds hold at the concrete lost session
`lossEnd` (two reveals, the second a mine). -/
theorem C7_revealed_count_bounds_witness :
    0 ≤ lossEnd.revealedCount ∧ lossEnd.revealedCount ≤ target lossEnd :=
  C7_revealed_count_bounds lossEnd lossEnd_reachable

/-- C8: Reveal rejection is a no-op.  The guard of `reveal_cell` reports
OutOfBounds on an invalid coordinate, AlreadyRevealed on a Revealed cell,
AlreadyFlagged on a Flagged cell; and whenever any of these reasons
fires, `reveal_cell` returns the state completely unchanged — in
particular the flagged cell stays Flagged and no counter moves. -/
theorem C8_reveal_reject_noop :
    ∀ (g : Game) (row col : Int) (picks : List (Nat × Nat)),
      (¬ is_valid_position g row col = true →
        reveal_reject_reason g row col = some NoOpReason.OutOfBounds) ∧
      (is_valid_position g row col = true → g.state row col = CellState.Revealed →
        reveal_reject_reason g row col = some NoOpReason.AlreadyRevealed) ∧
      (is_valid_position g row col = true → g.state row col = CellState.Flagged →
        reveal_reject_reason g row col = some NoOpReason.AlreadyFlagged) ∧
      ((reveal_reject_reason g row col).isSome = true →
        reveal_cell g row col picks = some g) := by
  intro g row col picks
  refine ⟨?_, ?_, ?_, ?_⟩
  · intro h
    unfold reveal_reject_reason
    rw [if_pos h]
  · intro hv hr
    unfold reveal_reject_reason
    rw [if_neg (not_not_intro hv), hr]
  · intro hv hf
    unfold reveal_reject_reason
    rw [if_neg (not_not_intro hv), hf]
  · intro hs
    by_cases hv : is_valid_position g row col = true
    · cases hst : g.state row col with
      | Hidden =>
          exfalso
          unfold reveal_reject_reason at hs
          rw [if_neg (not_not_intro hv), hst] at hs
          exact Bool.noConfusion hs
      | Revealed =>
          exact reveal_cell_reject picks
            (fun hg => CellState.noConfusion
              (show CellState.Revealed = CellState.Hidden from hst ▸ hg.2))
      | Flagged =>
          exact reveal_cell_reject picks
            (fun hg => CellState.noConfusion
              (show CellState.Flagged = CellState.Hidden from hst ▸ hg.2))
    · exact reveal_cell_reject picks (fun hg => hv hg.1)

/-- Witness for C8: on `flagOne` a reveal at the flagged `(0,0)` reports
AlreadyFlagged and returns the state unchanged, and a reveal at the
out-of-bounds `(-1,2)` reports OutOfBounds and is likewise the
identity. -/
theorem C8_reveal_reject_noop_witness :
    reveal_reject_reason flagOne 0 0 = some NoOpReason.AlreadyFlagged ∧
    reveal_cell flagOne 0 0 [] = some flagOne ∧
    reveal_reject_reason flagOne (-1) 2 = some NoOpReason.OutOfBounds ∧
    reveal_cell flagOne (-1) 2 [] = some flagOne := by
  have h1 := C8_reveal_reject_noop flagOne 0 0 []
  have h2 := C8_reveal_reject_noop flagOne (-1) 2 []
  exact ⟨h1.2.2.1 (by decide) (by decide), h1.2.2.2 (by decide),
         h2.1 (by decide), h2.2.2.2 (by decide)⟩

/-- C10 counterexample: flags do not always survive reveals.  On `nearWin`
the mine `(0,0)` is Flagged; revealing the last safe cell `(4,4)` wins the
game and `game_over_sequence` then marks every mine Revealed, the flagged
one included, so after the reveal `(0,0)` is Revealed, not Flagged
(minesweeper.c lines 433-440, reached from the victory branch). -/
theorem C10_flags_counterexample :
    nearWin.state 0 0 = CellState.Flagged ∧ nearWin.mines 0 0 = true ∧
    nearWinPost.gameOver = true ∧ nearWinPost.victory = true ∧
    nearWinPost.state 0 0 = CellState.Revealed := by
  exact ⟨by decide, by decide, by decide, by decide, by decide⟩

/-- C10 (amended): in any reachable in-progress state, a successful reveal
keeps every Flagged cell Flagged, except that a flagged MINE cell may end
up Revealed when that reveal wins the game (the cosmetic show-all-mines
pass); and `revealedCount` counts only Revealed non-mine cells (plus the
one losing mine reveal), never a flagged cell. -/
theorem C10_flags_survive_reveals {g : Game} (hreach : Reachable g)
    (hgo : g.gameOver = false) (row col : Int) (picks : List (Nat × Nat))
    {g' : Game} (hres : reveal_cell g row col picks = some g') :
    (∀ x y : Int, g.state x y = CellState.Flagged →
      g'.state x y = CellState.Flagged ∨
      (g'.mines x y = true ∧ g'.state x y = CellState.Revealed ∧
       g'.gameOver = true ∧ g'.victory = true)) ∧
    g.revealedCount = (revealedNonMineCard g : Int) + (if g.mineSeen then 1 else 0) := by
  have hinv := reachInv_holds g hreach
  exact ⟨reveal_flagsKept hinv hgo row col picks hres, hinv.countEq⟩

/-- Witness for C10: on `flagOne` (flag at `(0,0)`, first click pending) a
first reveal at `(1,1)` with pick stream `[(0,0)]` places the mine under
the flag, reveals only `(1,1)`, and the flag at `(0,0)` survives. -/
theorem C10_flags_survive_reveals_witness :
    ((reveal_cell flagOne 1 1 [(0, 0)]).getD flagOne).state 0 0 = CellState.Flagged := by
  have h := @C10_flags_survive_reveals flagOne flagOne_reachable rfl 1 1 [(0, 0)]
    ((reveal_cell flagOne 1 1 [(0, 0)]).getD flagOne) rfl
  rcases h.1 0 0 (by decide) with hf | ⟨-, -, hgo', -⟩
  · exact hf
  · exact absurd hgo' (by decide)
